import Mathlib

/-!
# Tic-tac-toe engine of `src/App.js`

A shallow embedding of the game component `Game` (history, cursor, mode flags,
click handling, the AI effect) and of the three free functions
`calculateWinner`, `getBestMove` and `minimax`.

* A square holds JavaScript `null`, `"X"` or `"O"`: the type `Cell`.
* A board is a JavaScript array of squares: a `List Cell`.
* `getBestMove` and `minimax` write into the array they are given and undo the
  write afterwards; they are embedded in state-passing style, returning the
  array next to their result.
* `minimax` is recursive; the embedding takes a recursion budget `fuel` and
  returns `none` when it is exhausted.
-/

namespace TicTacToe

/-! ## Data model -/

/-- Contents of one square: JavaScript `null`, `"X"` or `"O"`. -/
inductive Cell
  | null
  | X
  | O
  deriving DecidableEq, Repr

/-- A board: the array `squares`. -/
abbrev Board := List Cell

/-- JavaScript truthiness of a square (`Boolean(v)`): `null` is falsy, the two
marks are truthy. -/
def Cell.truthy : Cell → Bool
  | .null => false
  | .X => true
  | .O => true

/-- The read `squares[i]`.  Past the end JavaScript yields `undefined`, which is
falsy and differs from both marks; every use of a read in the source is a
truthiness test or a comparison with a truthy value, for which `undefined`
behaves as `null`. -/
def sq (squares : Board) (i : Nat) : Cell := squares.getD i Cell.null

/-- The result object of `calculateWinner`: `{ winner, line }`. -/
structure WinnerInfo where
  winner : Cell
  line : Nat × Nat × Nat
  deriving DecidableEq, Repr

/-- The constant `lines` of `calculateWinner`. -/
def lines : List (Nat × Nat × Nat) :=
  [(0, 1, 2), (3, 4, 5), (6, 7, 8),
   (0, 3, 6), (1, 4, 7), (2, 5, 8),
   (0, 4, 8), (2, 4, 6)]

/-- The test of the `if` inside the loop of `calculateWinner`:
`squares[a] && squares[a] === squares[b] && squares[a] === squares[c]`. -/
def lineComplete (squares : Board) (l : Nat × Nat × Nat) : Bool :=
  (sq squares l.1).truthy && (sq squares l.1 == sq squares l.2.1)
    && (sq squares l.1 == sq squares l.2.2)

/-- The `for` loop of `calculateWinner` over the remaining lines. -/
def calculateWinnerLoop (squares : Board) : List (Nat × Nat × Nat) → Option WinnerInfo
  | [] => none
  | l :: rest =>
    if lineComplete squares l then some { winner := sq squares l.1, line := l }
    else calculateWinnerLoop squares rest

/-- The function `calculateWinner(squares)`. -/
def calculateWinner (squares : Board) : Option WinnerInfo :=
  calculateWinnerLoop squares lines

/-- The expression `squares.map((square, index) => square === null ? index : null)
.filter(val => val !== null)`. -/
def availableMoves (squares : Board) : List Nat :=
  (squares.enum.map fun p => if p.2 = Cell.null then some p.1 else none).filterMap id

/-- The expression `squares.every(Boolean)`. -/
def isBoardFull (squares : Board) : Bool := squares.all Cell.truthy

/-! ## Numbers of the search -/

/-- The JavaScript numbers the search handles: `-Infinity`, an integer,
`Infinity`. -/
inductive JSNum
  | negInf
  | num (n : Int)
  | posInf
  deriving DecidableEq, Repr

/-- The comparison `a <= b`. -/
def JSNum.le : JSNum → JSNum → Bool
  | .negInf, _ => true
  | .num _, .negInf => false
  | .num a, .num b => decide (a ≤ b)
  | .num _, .posInf => true
  | .posInf, .posInf => true
  | .posInf, _ => false

/-- The comparison `a > b`. -/
def JSNum.gt (a b : JSNum) : Bool := !(JSNum.le a b)

/-- The function `Math.max(a, b)`. -/
def JSNum.max (a b : JSNum) : JSNum := if JSNum.le a b then b else a

/-- The function `Math.min(a, b)`. -/
def JSNum.min (a b : JSNum) : JSNum := if JSNum.le a b then a else b

/-! ## The search -/

/-- One of the two `for (const move of availableMoves)` loops of `minimax`:
write `mark` at `move`, evaluate the array with the recursive call `rec`, write
`null` back, and fold the value into `bestValue` with `combine` (`Math.max` in
the maximizing branch, `Math.min` in the other). -/
def exploreMoves (mark : Cell) (combine : JSNum → JSNum → JSNum)
    (rec : Board → Option (JSNum × Board)) :
    List Nat → Board → JSNum → Option (JSNum × Board)
  | [], squares, bestValue => some (bestValue, squares)
  | move :: rest, squares, bestValue =>
    match rec (squares.set move mark) with
    | none => none
    | some (moveValue, squares1) =>
      exploreMoves mark combine rec rest (squares1.set move Cell.null)
        (combine bestValue moveValue)

/-- The function `minimax(squares, isMaximizing)`, with a recursion budget.  The
result carries the array as the call leaves it. -/
def minimax : Nat → Board → Bool → Option (JSNum × Board)
  | 0, _, _ => none
  | fuel + 1, squares, isMaximizing =>
    match calculateWinner squares with
    | some winnerInfo =>
      some (if winnerInfo.winner = Cell.O then JSNum.num 1 else JSNum.num (-1), squares)
    | none =>
      if isBoardFull squares then some (JSNum.num 0, squares)
      else if isMaximizing then
        exploreMoves Cell.O JSNum.max (fun b => minimax fuel b false)
          (availableMoves squares) squares JSNum.negInf
      else
        exploreMoves Cell.X JSNum.min (fun b => minimax fuel b true)
          (availableMoves squares) squares JSNum.posInf

/-- The `for` loop of `getBestMove`; `bestMove` is `none` while it is still
`undefined`. -/
def bestMoveLoop (rec : Board → Option (JSNum × Board)) :
    List Nat → Board → Option Nat → JSNum → Option (Option Nat × Board)
  | [], squares, bestMove, _ => some (bestMove, squares)
  | move :: rest, squares, bestMove, bestValue =>
    match rec (squares.set move Cell.O) with
    | none => none
    | some (moveValue, squares1) =>
      if JSNum.gt moveValue bestValue then
        bestMoveLoop rec rest (squares1.set move Cell.null) (some move) moveValue
      else
        bestMoveLoop rec rest (squares1.set move Cell.null) bestMove bestValue

/-- The function `getBestMove(squares)`; `fuel` is the budget of its calls of
`minimax`.  The inner `none` is the JavaScript `undefined`. -/
def getBestMove (fuel : Nat) (squares : Board) : Option (Option Nat × Board) :=
  bestMoveLoop (fun b => minimax fuel b false) (availableMoves squares) squares none
    JSNum.negInf

/-! ## Value-passing reading of the search, used in proofs -/

/-- Number of `null` squares. -/
def countNull (squares : Board) : Nat := squares.count Cell.null

/-- Value of `minimax` computed on copies of the board instead of in place. -/
def value : Nat → Board → Bool → JSNum
  | 0, _, _ => JSNum.num 0
  | fuel + 1, squares, isMaximizing =>
    match calculateWinner squares with
    | some winnerInfo => if winnerInfo.winner = Cell.O then JSNum.num 1 else JSNum.num (-1)
    | none =>
      if isBoardFull squares then JSNum.num 0
      else if isMaximizing then
        (availableMoves squares).foldl
          (fun best move => JSNum.max best (value fuel (squares.set move Cell.O) false))
          JSNum.negInf
      else
        (availableMoves squares).foldl
          (fun best move => JSNum.min best (value fuel (squares.set move Cell.X) true))
          JSNum.posInf

/-! ## The component `Game` -/

/-- The state of `Game`: the four `useState` cells. -/
structure GameState where
  history : List Board
  currentMove : Nat
  isAI : Bool
  aiTurn : Bool
  deriving DecidableEq, Repr

/-- The board `Array(9).fill(null)`. -/
def emptyBoard : Board := List.replicate 9 Cell.null

/-- The initial values of the four `useState` cells. -/
def initialState : GameState :=
  { history := [emptyBoard], currentMove := 0, isAI := false, aiTurn := false }

/-- The constant `xIsNext = currentMove % 2 === 0`. -/
def xIsNext (s : GameState) : Bool := s.currentMove % 2 == 0

/-- The constant `currentSquares = history[currentMove]`; `none` is the
JavaScript `undefined`, on which every later use throws. -/
def currentSquares (s : GameState) : Option Board := s.history[s.currentMove]?

/-- The read `currentSquares[i]` of `handleClick`, where `i` is a cell index or
`undefined` (`none`).  The property named `undefined` does not exist on an
array, so that read is `undefined`, which is falsy. -/
def readAt (squares : Board) : Option Nat → Cell
  | some i => sq squares i
  | none => Cell.null

/-- The write `nextSquares[i] = v` of `handleClick`, where `i` is a cell index
inside the array or `undefined` (`none`); the latter sets a property named
`undefined` and leaves every element as it is.  Indices past the end, which
`Board` never passes, are not modelled. -/
def writeAt (squares : Board) (i : Option Nat) (v : Cell) : Board :=
  match i with
  | some k => squares.set k v
  | none => squares

/-- The handler `handleClick(i)`.  `none` as a result is the exception thrown
when `currentSquares` is `undefined`. -/
def handleClick (s : GameState) (i : Option Nat) : Option GameState :=
  match currentSquares s with
  | none => none
  | some cur =>
    if (calculateWinner cur).isSome || (readAt cur i).truthy then some s
    else
      let nextSquares := writeAt cur i (if xIsNext s then Cell.X else Cell.O)
      let nextHistory := s.history.take (s.currentMove + 1) ++ [nextSquares]
      some { history := nextHistory
             currentMove := nextHistory.length - 1
             isAI := s.isAI
             aiTurn := if s.isAI && xIsNext s then true else s.aiTurn }

/-- The handler `jumpTo(move)`. -/
def jumpTo (s : GameState) (move : Nat) : GameState :=
  { s with currentMove := move, aiTurn := false }

/-- The handler `resetGame()`. -/
def resetGame (s : GameState) : GameState :=
  { s with history := [emptyBoard], currentMove := 0, aiTurn := false }

/-- The handler `handleModeChange(event)`, given `event.target.value`. -/
def handleModeChange (s : GameState) (value : String) : GameState :=
  resetGame { s with isAI := value == "ai" }

/-- The condition of the `if` in the effect:
`isAI && !xIsNext && !calculateWinner(currentSquares) && aiTurn`. -/
def effectCondition (s : GameState) : Bool :=
  match currentSquares s with
  | none => false
  | some cur => s.isAI && !xIsNext s && (calculateWinner cur).isNone && s.aiTurn

/-- The body of the `useEffect` callback.  `getBestMove` works on the array
stored in `history`, so the array it leaves behind is put back at
`history[currentMove]` before `handleClick` reads it. -/
def aiEffect (fuel : Nat) (s : GameState) : Option GameState :=
  match currentSquares s with
  | none => none
  | some cur =>
    if s.isAI && !xIsNext s && (calculateWinner cur).isNone && s.aiTurn then
      match getBestMove fuel cur with
      | none => none
      | some (aiMove, cur1) =>
        match handleClick { s with history := s.history.set s.currentMove cur1 } aiMove with
        | none => none
        | some s1 => some { s1 with aiTurn := false }
    else some s

/-- The text of a mark inside the status line. -/
def Cell.text : Cell → String
  | .null => "null"
  | .X => "X"
  | .O => "O"

/-- The status line that `Game` derives from the current position (`winnerInfo`,
`winner`, `isBoardFull`, `status`). -/
def statusOf (squares : Board) (xNext : Bool) : String :=
  match calculateWinner squares with
  | some winnerInfo =>
    if winnerInfo.winner.truthy then "Winner: " ++ winnerInfo.winner.text
    else if isBoardFull squares then "Draw"
    else "Next player: " ++ (if xNext then "X" else "O")
  | none =>
    if isBoardFull squares then "Draw"
    else "Next player: " ++ (if xNext then "X" else "O")

/-- The status line of a state of `Game`. -/
def status (s : GameState) : Option String :=
  (currentSquares s).map fun cur => statusOf cur (xIsNext s)

/-- What the user can do to `Game`: click square `i`, press the history button
`move`, press reset, pick the radio button with the given value. -/
inductive Event
  | click (i : Nat)
  | jump (move : Nat)
  | reset
  | mode (value : String)
  deriving DecidableEq, Repr

/-- The events the rendered page offers in state `s`: the nine squares, one
button per history entry, the reset button, the two radio buttons. -/
def Event.offered (s : GameState) : Event → Bool
  | .click i => decide (i < 9)
  | .jump move => decide (move < s.history.length)
  | .reset => true
  | .mode value => value == "human" || value == "ai"

/-- The handler that an event runs. -/
def handleEvent (s : GameState) : Event → Option GameState
  | .click i => handleClick s (some i)
  | .jump move => some (jumpTo s move)
  | .reset => some (resetGame s)
  | .mode value => some (handleModeChange s value)

/-- The states `Game` goes through.  React runs a pending effect of a render
before it handles the next user event, so an event is taken only in a state
whose effect has nothing to do. -/
inductive Reachable (fuel : Nat) : GameState → Prop
  | init : Reachable fuel initialState
  | event {s s1 : GameState} (e : Event) : Reachable fuel s → effectCondition s = false →
      e.offered s = true → handleEvent s e = some s1 → Reachable fuel s1
  | effect {s s1 : GameState} : Reachable fuel s → effectCondition s = true →
      aiEffect fuel s = some s1 → Reachable fuel s1

/-! ## Definitions used to state and to prove the properties -/

/-- Minimax value of a position: `value` with the budget that the number of
empty squares calls for. -/
def val (squares : Board) (isMaximizing : Bool) : JSNum :=
  value (countNull squares + 1) squares isMaximizing

/-- The loop of `getBestMove` run on the values `f move` of the moves. -/
def pickBest (f : Nat → JSNum) : List Nat → Option Nat → JSNum → Option Nat
  | [], bestMove, _ => bestMove
  | move :: rest, bestMove, bestValue =>
    if JSNum.gt (f move) bestValue then pickBest f rest (some move) (f move)
    else pickBest f rest bestMove bestValue

/-- A line holds three equal non-empty marks. -/
def ThreeInLine (squares : Board) (l : Nat × Nat × Nat) : Prop :=
  sq squares l.1 ≠ Cell.null ∧ sq squares l.2.1 = sq squares l.1 ∧
    sq squares l.2.2 = sq squares l.1

/-- The board whose three squares of the line `l` hold `m`, all others empty. -/
def lineBoard (l : Nat × Nat × Nat) (m : Cell) : Board :=
  ((emptyBoard.set l.1 m).set l.2.1 m).set l.2.2 m

/-- The mark that moves at ply `k`: `"X"` at even plies, `"O"` at odd ones. -/
def markAt (k : Nat) : Cell := if k % 2 = 0 then Cell.X else Cell.O

/-- Games between a free player X and the search: `AIGame fuel k b` says that
`b` is a position after `k` plies of a game from the empty board in which X
moved to an empty square at every even ply and O moved to the square returned by
`getBestMove` at every odd ply, no move being made once a line is complete. -/
inductive AIGame (fuel : Nat) : Nat → Board → Prop
  | start : AIGame fuel 0 emptyBoard
  | xMove {k : Nat} {b : Board} (i : Nat) : AIGame fuel k b → k % 2 = 0 →
      calculateWinner b = none → i < 9 → sq b i = Cell.null →
      AIGame fuel (k + 1) (b.set i Cell.X)
  | oMove {k : Nat} {b b1 : Board} (i : Nat) : AIGame fuel k b → k % 2 = 1 →
      calculateWinner b = none → getBestMove fuel b = some (some i, b1) →
      AIGame fuel (k + 1) (b1.set i Cell.O)

/-- The mark on a line of three squares, `null` when the line is not complete. -/
def three : Cell → Cell → Cell → Cell
  | .X, .X, .X => .X
  | .O, .O, .O => .O
  | _, _, _ => .null

/-- The first of two marks that is not `null`. -/
def orElse : Cell → Cell → Cell
  | .null, c => c
  | .X, _ => .X
  | .O, _ => .O

/-- Whether a square is `null`. -/
def Cell.isNull : Cell → Bool
  | .null => true
  | .X => false
  | .O => false

/-- The winner of a board given by its nine squares, `null` when there is none. -/
def winner9 (a0 a1 a2 a3 a4 a5 a6 a7 a8 : Cell) : Cell :=
  orElse (three a0 a1 a2) (orElse (three a3 a4 a5) (orElse (three a6 a7 a8)
  (orElse (three a0 a3 a6) (orElse (three a1 a4 a7) (orElse (three a2 a5 a8)
  (orElse (three a0 a4 a8) (three a2 a4 a6)))))))

/-- Threshold test on the minimax value of a board given by its nine squares:
whether the value reaches a threshold, where `rO`, `rX` and `rD` say whether
the values 1 (O has won), -1 (X has won) and 0 (draw) reach it.  A maximizing
position reaches it when one move does, a minimizing one when all moves do. -/
def reaches9 (rO rX rD : Bool) :
    Nat → Cell → Cell → Cell → Cell → Cell → Cell → Cell → Cell → Cell → Bool → Bool
  | 0, _, _, _, _, _, _, _, _, _, _ => rD
  | fuel + 1, a0, a1, a2, a3, a4, a5, a6, a7, a8, isMaximizing =>
    match winner9 a0 a1 a2 a3 a4 a5 a6 a7 a8 with
    | .O => rO
    | .X => rX
    | .null =>
      if a0.truthy && (a1.truthy && (a2.truthy && (a3.truthy && (a4.truthy &&
          (a5.truthy && (a6.truthy && (a7.truthy && a8.truthy))))))) then rD
      else if isMaximizing then
        (a0.isNull && reaches9 rO rX rD fuel .O a1 a2 a3 a4 a5 a6 a7 a8 false) ||
        ((a1.isNull && reaches9 rO rX rD fuel a0 .O a2 a3 a4 a5 a6 a7 a8 false) ||
        ((a2.isNull && reaches9 rO rX rD fuel a0 a1 .O a3 a4 a5 a6 a7 a8 false) ||
        ((a3.isNull && reaches9 rO rX rD fuel a0 a1 a2 .O a4 a5 a6 a7 a8 false) ||
        ((a4.isNull && reaches9 rO rX rD fuel a0 a1 a2 a3 .O a5 a6 a7 a8 false) ||
        ((a5.isNull && reaches9 rO rX rD fuel a0 a1 a2 a3 a4 .O a6 a7 a8 false) ||
        ((a6.isNull && reaches9 rO rX rD fuel a0 a1 a2 a3 a4 a5 .O a7 a8 false) ||
        ((a7.isNull && reaches9 rO rX rD fuel a0 a1 a2 a3 a4 a5 a6 .O a8 false) ||
        (a8.isNull && reaches9 rO rX rD fuel a0 a1 a2 a3 a4 a5 a6 a7 .O false))))))))
      else
        (!a0.isNull || reaches9 rO rX rD fuel .X a1 a2 a3 a4 a5 a6 a7 a8 true) &&
        ((!a1.isNull || reaches9 rO rX rD fuel a0 .X a2 a3 a4 a5 a6 a7 a8 true) &&
        ((!a2.isNull || reaches9 rO rX rD fuel a0 a1 .X a3 a4 a5 a6 a7 a8 true) &&
        ((!a3.isNull || reaches9 rO rX rD fuel a0 a1 a2 .X a4 a5 a6 a7 a8 true) &&
        ((!a4.isNull || reaches9 rO rX rD fuel a0 a1 a2 a3 .X a5 a6 a7 a8 true) &&
        ((!a5.isNull || reaches9 rO rX rD fuel a0 a1 a2 a3 a4 .X a6 a7 a8 true) &&
        ((!a6.isNull || reaches9 rO rX rD fuel a0 a1 a2 a3 a4 a5 .X a7 a8 true) &&
        ((!a7.isNull || reaches9 rO rX rD fuel a0 a1 a2 a3 a4 a5 a6 .X a8 true) &&
        (!a8.isNull || reaches9 rO rX rD fuel a0 a1 a2 a3 a4 a5 a6 a7 .X true))))))))

/-- The threshold test `c <= value fuel squares isMaximizing`, run by `reaches9`
on a board of nine squares. -/
def reaches (c : Int) (fuel : Nat) (squares : Board) (isMaximizing : Bool) : Bool :=
  match squares with
  | [a0, a1, a2, a3, a4, a5, a6, a7, a8] =>
    reaches9 (decide (c ≤ 1)) (decide (c ≤ -1)) (decide (c ≤ 0)) fuel
      a0 a1 a2 a3 a4 a5 a6 a7 a8 isMaximizing
  | _ => JSNum.le (JSNum.num c) (value fuel squares isMaximizing)

/-- The minimax value recovered from two threshold tests. -/
def valueByTests (fuel : Nat) (squares : Board) (isMaximizing : Bool) : JSNum :=
  if reaches 1 fuel squares isMaximizing then JSNum.num 1
  else if reaches 0 fuel squares isMaximizing then JSNum.num 0
  else JSNum.num (-1)

/-- The three values a finished game can have. -/
def IsScore (v : JSNum) : Prop := v = JSNum.num (-1) ∨ v = JSNum.num 0 ∨ v = JSNum.num 1

/-- The winner that the loop of `calculateWinner` reports, `null` for none. -/
def winnerOf (b : Board) (ls : List (Nat × Nat × Nat)) : Cell :=
  match calculateWinnerLoop b ls with
  | some w => w.winner
  | none => Cell.null

/-- A board for the examples: X X _ / O O _ / _ _ _. -/
def sampleBoard : Board :=
  [Cell.X, Cell.X, Cell.null, Cell.O, Cell.O, Cell.null, Cell.null, Cell.null, Cell.null]

/-- The positions of the game in which the squares of `moves` are taken in
turn, X first. -/
def positionsFrom : Nat → Board → List Nat → List Board
  | _, b, [] => [b]
  | k, b, i :: rest => b :: positionsFrom (k + 1) (b.set i (markAt k)) rest

/-- A drawn game against the search: X takes 4, 8, 1, 6, 5 and the search
answers 0, 2, 7, 3. -/
def drawnGame : List Board := positionsFrom 0 emptyBoard [4, 0, 8, 2, 1, 7, 6, 3, 5]

/-- The state of `Game` in Human-vs-AI mode after `k` plies of `drawnGame`. -/
def drawnState (k : Nat) : GameState :=
  { history := drawnGame.take (k + 1), currentMove := k, isAI := true,
    aiTurn := k % 2 == 1 }

/-- The state that the effect leaves after the last ply of `drawnGame`. -/
def overrunState : GameState :=
  { history := drawnGame ++ drawnGame.drop 9, currentMove := 10, isAI := true, aiTurn := false }

/-- The last position of `drawnGame`: O X O / O X X / X O X. -/
def drawnBoard : Board :=
  [Cell.O, Cell.X, Cell.O, Cell.O, Cell.X, Cell.X, Cell.X, Cell.O, Cell.X]

/-- A position that the search wins: X X O / X O _ / O _ _. -/
def wonBoard : Board :=
  [Cell.X, Cell.X, Cell.O, Cell.X, Cell.O, Cell.null, Cell.O, Cell.null, Cell.null]

/-- A state after one move: X took square 0. -/
def sampleState : GameState :=
  { history := [emptyBoard, emptyBoard.set 0 Cell.X], currentMove := 1, isAI := false,
    aiTurn := false }

/-- A full board on which X has completed a line: X X X / O O X / O O X. -/
def fullWonBoard : Board :=
  [Cell.X, Cell.X, Cell.X, Cell.O, Cell.O, Cell.X, Cell.O, Cell.O, Cell.X]

/-- Legal alternating play: `LegalPlay k b` says that `b` is reached from the
empty board in `k` moves, X first, each on an empty square, none made once a
line is complete. -/
inductive LegalPlay : Nat → Board → Prop
  | start : LegalPlay 0 emptyBoard
  | move {k : Nat} {b : Board} (i : Nat) : LegalPlay k b → calculateWinner b = none →
      i < 9 → sq b i = Cell.null → LegalPlay (k + 1) (b.set i (markAt k))

/-- The lines of a board that are complete. -/
def completeLines (squares : Board) : List (Nat × Nat × Nat) :=
  lines.filter (lineComplete squares)

/-- One for the mark `"X"`, zero otherwise. -/
def Cell.isX : Cell → Nat
  | .X => 1
  | _ => 0

/-- One for the mark `"O"`, zero otherwise. -/
def Cell.isO : Cell → Nat
  | .O => 1
  | _ => 0

/-- One for a mark, zero for `null`. -/
def Cell.isMark : Cell → Nat
  | .null => 0
  | _ => 1

/-- The number of complete lines of a board given by its nine squares. -/
def lineCount9 (a0 a1 a2 a3 a4 a5 a6 a7 a8 : Cell) : Nat :=
  (three a0 a1 a2).isMark + ((three a3 a4 a5).isMark + ((three a6 a7 a8).isMark +
  ((three a0 a3 a6).isMark + ((three a1 a4 a7).isMark + ((three a2 a5 a8).isMark +
  ((three a0 a4 a8).isMark + (three a2 a4 a6).isMark))))))

/-- Whether a board given by its nine squares, if it holds at most five `"X"`
and at most four `"O"`, has at most two complete lines. -/
def fewLines9 (a0 a1 a2 a3 a4 a5 a6 a7 a8 : Cell) : Bool :=
  !(Nat.ble (a0.isX + (a1.isX + (a2.isX + (a3.isX + (a4.isX + (a5.isX + (a6.isX +
      (a7.isX + a8.isX)))))))) 5 &&
    Nat.ble (a0.isO + (a1.isO + (a2.isO + (a3.isO + (a4.isO + (a5.isO + (a6.isO +
      (a7.isO + a8.isO)))))))) 4) ||
  Nat.ble (lineCount9 a0 a1 a2 a3 a4 a5 a6 a7 a8) 2

/-- Whether a test holds of the three values of a square. -/
def forallCell (p : Cell → Bool) : Bool := p Cell.null && (p Cell.X && p Cell.O)

/-- Whether `fewLines9` holds of all boards. -/
def fewLinesAll : Bool :=
  forallCell fun a0 => forallCell fun a1 => forallCell fun a2 =>
  forallCell fun a3 => forallCell fun a4 => forallCell fun a5 =>
  forallCell fun a6 => forallCell fun a7 => forallCell fun a8 =>
    fewLines9 a0 a1 a2 a3 a4 a5 a6 a7 a8

/-- The invariant behind the stale-move protection: the cursor points into the
history, and `aiTurn` is set only in Human-vs-AI mode, at an odd ply, with the
cursor on the last entry of the history. -/
def AiTurnInv (s : GameState) : Prop :=
  s.currentMove < s.history.length ∧
  (s.aiTurn = true → s.isAI = true ∧ s.currentMove % 2 = 1 ∧
    s.currentMove + 1 = s.history.length)

/-! # Theorems -/

/-! ## Reads and writes -/

theorem sq_eq_getElem {b : Board} {i : Nat} (h : i < b.length) : sq b i = b[i] := by
  simp [sq, List.getD_eq_getElem?_getD, List.getElem?_eq_getElem h]

theorem sq_of_length_le {b : Board} {i : Nat} (h : b.length ≤ i) : sq b i = Cell.null := by
  simp [sq, List.getD_eq_getElem?_getD, List.getElem?_eq_none h]

theorem sq_set_self {b : Board} {i : Nat} (v : Cell) (h : i < b.length) :
    sq (b.set i v) i = v := by
  simp [sq, List.getD_eq_getElem?_getD, List.getElem?_set_self h]

theorem sq_set_of_ne {b : Board} {i j : Nat} (v : Cell) (h : i ≠ j) :
    sq (b.set i v) j = sq b j := by
  simp [sq, List.getD_eq_getElem?_getD, List.getElem?_set_ne h]

theorem set_sq_self {b : Board} {i : Nat} : b.set i (sq b i) = b := by
  induction b generalizing i with
  | nil => rfl
  | cons a t ih =>
    cases i with
    | zero => simp [sq]
    | succ k =>
      have := @ih k
      simp only [sq, List.getD_cons_succ, List.set_cons_succ] at this ⊢
      rw [this]

theorem set_set_null {b : Board} {i : Nat} (m : Cell) (h : sq b i = Cell.null) :
    (b.set i m).set i Cell.null = b := by
  rw [List.set_set, ← h, set_sq_self]

theorem truthy_iff_ne_null (c : Cell) : c.truthy = true ↔ c ≠ Cell.null := by
  cases c <;> simp [Cell.truthy]

theorem truthy_eq_false_iff (c : Cell) : c.truthy = false ↔ c = Cell.null := by
  cases c <;> simp [Cell.truthy]

theorem countNull_set {b : Board} {i : Nat} {m : Cell} (hi : i < b.length)
    (h : sq b i = Cell.null) (hm : m ≠ Cell.null) :
    countNull (b.set i m) + 1 = countNull b := by
  induction b generalizing i with
  | nil => simp at hi
  | cons a t ih =>
    cases i with
    | zero =>
      have ha : a = Cell.null := by simpa [sq] using h
      subst ha
      cases m <;> simp_all [countNull, List.count_cons]
    | succ k =>
      have hk : k < t.length := by simpa using hi
      have hs : sq t k = Cell.null := by simpa [sq] using h
      have := ih hk hs
      simp only [countNull, List.set_cons_succ, List.count_cons] at this ⊢
      omega

theorem isBoardFull_iff (b : Board) : isBoardFull b = true ↔ ∀ i < b.length, sq b i ≠ Cell.null := by
  simp only [isBoardFull, List.all_eq_true, truthy_iff_ne_null]
  constructor
  · intro h i hi
    rw [sq_eq_getElem hi]
    exact h _ (List.getElem_mem hi)
  · intro h c hc
    obtain ⟨i, hi, rfl⟩ := List.getElem_of_mem hc
    rw [← sq_eq_getElem hi]
    exact h i hi

/-! ## The list of available moves -/

theorem availableMoves_aux (b : Board) (n : Nat) :
    (b.enumFrom n).filterMap (fun p => if p.2 = Cell.null then some p.1 else none)
      = ((List.range b.length).filter fun i => sq b i == Cell.null).map (· + n) := by
  induction b generalizing n with
  | nil => simp
  | cons a t ih =>
    rw [List.enumFrom_cons, List.length_cons, List.range_succ_eq_map, List.filter_cons,
      List.filterMap_cons, ih (n + 1)]
    have hmap : (List.filter (fun i => sq (a :: t) i == Cell.null) (List.map Nat.succ (List.range t.length)))
        = List.map Nat.succ (List.filter (fun i => sq t i == Cell.null) (List.range t.length)) := by
      rw [List.filter_map]
      rfl
    rw [hmap]
    by_cases ha : a = Cell.null
    · subst ha
      simp [sq, Function.comp_def, Nat.add_comm, Nat.add_left_comm]
    · have : (sq (a :: t) 0 == Cell.null) = false := by simpa [sq] using ha
      simp [this, ha, Function.comp_def, Nat.add_comm, Nat.add_left_comm]

theorem availableMoves_eq_filter (b : Board) :
    availableMoves b = (List.range b.length).filter fun i => sq b i == Cell.null := by
  have h := availableMoves_aux b 0
  simp only [Nat.add_zero, List.map_id'] at h
  rw [← h, availableMoves, List.filterMap_map, List.enum]
  rfl

theorem mem_availableMoves {b : Board} {i : Nat} :
    i ∈ availableMoves b ↔ i < b.length ∧ sq b i = Cell.null := by
  simp [availableMoves_eq_filter]

theorem availableMoves_eq_nil_of_full {b : Board} (h : isBoardFull b = true) :
    availableMoves b = [] := by
  rw [List.eq_nil_iff_forall_not_mem]
  intro i hi
  rw [mem_availableMoves] at hi
  exact (isBoardFull_iff b).1 h i hi.1 hi.2

theorem exists_available_of_not_full {b : Board} (h : isBoardFull b = false) :
    ∃ i, i ∈ availableMoves b := by
  by_contra hne
  have : isBoardFull b = true := by
    rw [isBoardFull_iff]
    intro i hi hnull
    exact hne ⟨i, mem_availableMoves.2 ⟨hi, hnull⟩⟩
  simp [this] at h

/-! ## Order on the numbers of the search -/

theorem JSNum.le_refl (a : JSNum) : JSNum.le a a = true := by
  cases a <;> simp [JSNum.le]

theorem JSNum.le_total (a b : JSNum) : JSNum.le a b = true ∨ JSNum.le b a = true := by
  cases a <;> cases b <;> simp [JSNum.le]
  omega

theorem JSNum.le_trans {a b c : JSNum} (h1 : JSNum.le a b = true) (h2 : JSNum.le b c = true) :
    JSNum.le a c = true := by
  cases a <;> cases b <;> cases c <;> simp_all [JSNum.le]
  omega

theorem JSNum.le_max_iff (k : Int) (a b : JSNum) :
    JSNum.le (JSNum.num k) (JSNum.max a b) = (JSNum.le (JSNum.num k) a || JSNum.le (JSNum.num k) b) := by
  rw [Bool.eq_iff_iff]
  cases a with
  | negInf => simp [JSNum.max, JSNum.le]
  | posInf => cases b <;> simp [JSNum.max, JSNum.le]
  | num x =>
    cases b with
    | negInf => simp [JSNum.max, JSNum.le]
    | posInf => simp [JSNum.max, JSNum.le]
    | num y => by_cases h : x ≤ y <;> simp [JSNum.max, JSNum.le, h] <;> omega

theorem JSNum.le_min_iff (k : Int) (a b : JSNum) :
    JSNum.le (JSNum.num k) (JSNum.min a b) = (JSNum.le (JSNum.num k) a && JSNum.le (JSNum.num k) b) := by
  rw [Bool.eq_iff_iff]
  cases a with
  | negInf => simp [JSNum.min, JSNum.le]
  | posInf => cases b <;> simp [JSNum.min, JSNum.le]
  | num x =>
    cases b with
    | negInf => simp [JSNum.min, JSNum.le]
    | posInf => simp [JSNum.min, JSNum.le]
    | num y => by_cases h : x ≤ y <;> simp [JSNum.min, JSNum.le, h] <;> omega

theorem le_foldl_max (k : Int) (f : Nat → JSNum) (l : List Nat) (init : JSNum) :
    JSNum.le (JSNum.num k) (l.foldl (fun best move => JSNum.max best (f move)) init)
      = (JSNum.le (JSNum.num k) init || l.any fun move => JSNum.le (JSNum.num k) (f move)) := by
  induction l generalizing init with
  | nil => simp
  | cons a t ih => simp [ih, JSNum.le_max_iff, Bool.or_assoc]

theorem le_foldl_min (k : Int) (f : Nat → JSNum) (l : List Nat) (init : JSNum) :
    JSNum.le (JSNum.num k) (l.foldl (fun best move => JSNum.min best (f move)) init)
      = (JSNum.le (JSNum.num k) init && l.all fun move => JSNum.le (JSNum.num k) (f move)) := by
  induction l generalizing init with
  | nil => simp
  | cons a t ih => simp [ih, JSNum.le_min_iff, Bool.and_assoc]

theorem isScore_max {a b : JSNum} (ha : a = JSNum.negInf ∨ IsScore a) (hb : IsScore b) :
    IsScore (JSNum.max a b) := by
  unfold JSNum.max
  rcases ha with rfl | ha
  · simpa [JSNum.le] using hb
  · split
    · exact hb
    · exact ha

theorem isScore_min {a b : JSNum} (ha : a = JSNum.posInf ∨ IsScore a) (hb : IsScore b) :
    IsScore (JSNum.min a b) := by
  unfold JSNum.min
  rcases ha with rfl | ha
  · rcases hb with rfl | rfl | rfl <;> simp [JSNum.le, IsScore]
  · split
    · exact ha
    · exact hb

theorem isScore_foldl_max (f : Nat → JSNum) (l : List Nat) (hf : ∀ m ∈ l, IsScore (f m))
    (init : JSNum) (hinit : init = JSNum.negInf ∨ IsScore init) :
    (l = [] ∧ init = JSNum.negInf) ∨
      IsScore (l.foldl (fun best move => JSNum.max best (f move)) init) := by
  induction l generalizing init with
  | nil =>
    rcases hinit with h | h
    · exact Or.inl ⟨rfl, h⟩
    · exact Or.inr h
  | cons a t ih =>
    right
    have ha : IsScore (JSNum.max init (f a)) := isScore_max hinit (hf a (List.mem_cons_self _ _))
    rcases ih (fun m hm => hf m (List.mem_cons_of_mem _ hm)) _ (Or.inr ha) with ⟨_, h⟩ | h
    · rw [h] at ha
      rcases ha with h | h | h <;> cases h
    · exact h

theorem isScore_foldl_min (f : Nat → JSNum) (l : List Nat) (hf : ∀ m ∈ l, IsScore (f m))
    (init : JSNum) (hinit : init = JSNum.posInf ∨ IsScore init) :
    (l = [] ∧ init = JSNum.posInf) ∨
      IsScore (l.foldl (fun best move => JSNum.min best (f move)) init) := by
  induction l generalizing init with
  | nil =>
    rcases hinit with h | h
    · exact Or.inl ⟨rfl, h⟩
    · exact Or.inr h
  | cons a t ih =>
    right
    have ha : IsScore (JSNum.min init (f a)) := isScore_min hinit (hf a (List.mem_cons_self _ _))
    rcases ih (fun m hm => hf m (List.mem_cons_of_mem _ hm)) _ (Or.inr ha) with ⟨_, h⟩ | h
    · rw [h] at ha
      rcases ha with h | h | h <;> cases h
    · exact h

/-- The value of every board is -1, 0 or 1. -/
theorem isScore_value (fuel : Nat) (b : Board) (m : Bool) : IsScore (value fuel b m) := by
  induction fuel generalizing b m with
  | zero => simp [value, IsScore]
  | succ n ih =>
    unfold value
    split
    · split <;> simp [IsScore]
    · split
      · simp [IsScore]
      · rename_i hfull
        have hfull : isBoardFull b = false := by simpa using hfull
        obtain ⟨i, hi⟩ := exists_available_of_not_full hfull
        have hne : availableMoves b ≠ [] := List.ne_nil_of_mem hi
        split
        · rcases isScore_foldl_max (fun move => value n (b.set move Cell.O) false)
            (availableMoves b) (fun _ _ => ih _ _) JSNum.negInf (Or.inl rfl) with ⟨h, _⟩ | h
          · exact absurd h hne
          · exact h
        · rcases isScore_foldl_min (fun move => value n (b.set move Cell.X) true)
            (availableMoves b) (fun _ _ => ih _ _) JSNum.posInf (Or.inl rfl) with ⟨h, _⟩ | h
          · exact absurd h hne
          · exact h

/-! ## The in-place search computes `value` and restores the array -/

theorem exploreMoves_eq (mark : Cell) (combine : JSNum → JSNum → JSNum)
    (rec : Board → Option (JSNum × Board)) (g : Board → JSNum) (b : Board)
    (moves : List Nat) (hmoves : ∀ mv ∈ moves, sq b mv = Cell.null)
    (hrec : ∀ mv ∈ moves, rec (b.set mv mark) = some (g (b.set mv mark), b.set mv mark))
    (best : JSNum) :
    exploreMoves mark combine rec moves b best
      = some (moves.foldl (fun best mv => combine best (g (b.set mv mark))) best, b) := by
  induction moves generalizing best with
  | nil => rfl
  | cons mv rest ih =>
    have h1 := hrec mv (List.mem_cons_self _ _)
    have h2 := hmoves mv (List.mem_cons_self _ _)
    simp only [exploreMoves, h1, set_set_null mark h2, List.foldl_cons]
    exact ih (fun m hm => hmoves m (List.mem_cons_of_mem _ hm))
      (fun m hm => hrec m (List.mem_cons_of_mem _ hm)) _

theorem bestMoveLoop_eq (rec : Board → Option (JSNum × Board)) (g : Board → JSNum) (b : Board)
    (moves : List Nat) (hmoves : ∀ mv ∈ moves, sq b mv = Cell.null)
    (hrec : ∀ mv ∈ moves, rec (b.set mv Cell.O) = some (g (b.set mv Cell.O), b.set mv Cell.O))
    (bestMove : Option Nat) (bestValue : JSNum) :
    bestMoveLoop rec moves b bestMove bestValue
      = some (pickBest (fun mv => g (b.set mv Cell.O)) moves bestMove bestValue, b) := by
  induction moves generalizing bestMove bestValue with
  | nil => rfl
  | cons mv rest ih =>
    have h1 := hrec mv (List.mem_cons_self _ _)
    have h2 := hmoves mv (List.mem_cons_self _ _)
    have hr := ih (fun m hm => hmoves m (List.mem_cons_of_mem _ hm))
      (fun m hm => hrec m (List.mem_cons_of_mem _ hm))
    simp only [bestMoveLoop, h1, set_set_null Cell.O h2, pickBest]
    split
    · exact hr _ _
    · exact hr _ _

theorem countNull_child {b : Board} {mv : Nat} (mark : Cell) (hmark : mark ≠ Cell.null)
    (h : mv ∈ availableMoves b) : countNull (b.set mv mark) + 1 = countNull b := by
  rw [mem_availableMoves] at h
  exact countNull_set h.1 h.2 hmark

/-- With a budget above the number of empty squares, `minimax` returns the value
of the position and leaves the array as it found it. -/
theorem minimax_eq_value (fuel : Nat) (b : Board) (m : Bool) (h : countNull b < fuel) :
    minimax fuel b m = some (value fuel b m, b) := by
  induction fuel generalizing b m with
  | zero => omega
  | succ n ih =>
    unfold minimax value
    split
    · rfl
    · split
      · rfl
      · split
        · apply exploreMoves_eq Cell.O JSNum.max _ (fun b1 => value n b1 false)
          · intro mv hmv
            exact (mem_availableMoves.1 hmv).2
          · intro mv hmv
            apply ih
            have := countNull_child Cell.O (by decide) hmv
            omega
        · apply exploreMoves_eq Cell.X JSNum.min _ (fun b1 => value n b1 true)
          · intro mv hmv
            exact (mem_availableMoves.1 hmv).2
          · intro mv hmv
            apply ih
            have := countNull_child Cell.X (by decide) hmv
            omega

/-- The budget does not matter once it is above the number of empty squares. -/
theorem value_fuel (f g : Nat) (b : Board) (m : Bool) (hf : countNull b < f)
    (hg : countNull b < g) : value f b m = value g b m := by
  induction f generalizing g b m with
  | zero => omega
  | succ n ih =>
    cases g with
    | zero => omega
    | succ k =>
      unfold value
      split
      · rfl
      · split
        · rfl
        · split
          · apply List.foldl_ext
            intro best mv hmv
            have := countNull_child Cell.O (by decide) hmv
            rw [ih k _ _ (by omega) (by omega)]
          · apply List.foldl_ext
            intro best mv hmv
            have := countNull_child Cell.X (by decide) hmv
            rw [ih k _ _ (by omega) (by omega)]

theorem value_eq_val (fuel : Nat) (b : Board) (m : Bool) (h : countNull b < fuel) :
    value fuel b m = val b m :=
  value_fuel _ _ _ _ h (Nat.lt_succ_self _)

theorem minimax_eq_val (fuel : Nat) (b : Board) (m : Bool) (h : countNull b < fuel) :
    minimax fuel b m = some (val b m, b) := by
  rw [minimax_eq_value fuel b m h, value_eq_val fuel b m h]

theorem isScore_val (b : Board) (m : Bool) : IsScore (val b m) := isScore_value _ _ _

/-! ### The equations of the value -/

theorem val_of_winner {b : Board} {w : WinnerInfo} (m : Bool) (h : calculateWinner b = some w) :
    val b m = if w.winner = Cell.O then JSNum.num 1 else JSNum.num (-1) := by
  simp [val, value, h]

theorem val_of_full {b : Board} (m : Bool) (h : calculateWinner b = none)
    (hfull : isBoardFull b = true) : val b m = JSNum.num 0 := by
  simp [val, value, h, hfull]

theorem val_max {b : Board} (h : calculateWinner b = none) (hfull : isBoardFull b = false) :
    val b true = (availableMoves b).foldl
      (fun best mv => JSNum.max best (val (b.set mv Cell.O) false)) JSNum.negInf := by
  have hstep : val b true = (availableMoves b).foldl
      (fun best mv => JSNum.max best (value (countNull b) (b.set mv Cell.O) false))
      JSNum.negInf := by
    show value (countNull b + 1) b true = _
    rw [value, h]
    simp [hfull]
  rw [hstep]
  apply List.foldl_ext
  intro best mv hmv
  have := countNull_child Cell.O (by decide) hmv
  rw [value_eq_val _ _ _ (by omega)]

theorem val_min {b : Board} (h : calculateWinner b = none) (hfull : isBoardFull b = false) :
    val b false = (availableMoves b).foldl
      (fun best mv => JSNum.min best (val (b.set mv Cell.X) true)) JSNum.posInf := by
  have hstep : val b false = (availableMoves b).foldl
      (fun best mv => JSNum.min best (value (countNull b) (b.set mv Cell.X) true))
      JSNum.posInf := by
    show value (countNull b + 1) b false = _
    rw [value, h]
    simp [hfull]
  rw [hstep]
  apply List.foldl_ext
  intro best mv hmv
  have := countNull_child Cell.X (by decide) hmv
  rw [value_eq_val _ _ _ (by omega)]

/-! ### `getBestMove` -/

theorem getBestMove_eq (fuel : Nat) (b : Board) (h : countNull b ≤ fuel) :
    getBestMove fuel b = some (pickBest (fun mv => val (b.set mv Cell.O) false)
      (availableMoves b) none JSNum.negInf, b) := by
  unfold getBestMove
  apply bestMoveLoop_eq _ (fun b1 => val b1 false)
  · intro mv hmv
    exact (mem_availableMoves.1 hmv).2
  · intro mv hmv
    apply minimax_eq_val
    have := countNull_child Cell.O (by decide) hmv
    omega

/-- What the loop of `getBestMove` leaves in `bestMove`: a move whose value no
other move of the list exceeds. -/
theorem pickBest_spec (f : Nat → JSNum) (moves : List Nat) (bestMove : Option Nat)
    (bestValue : JSNum)
    (hinv : (bestMove = none ∧ bestValue = JSNum.negInf) ∨ (∃ i, bestMove = some i ∧ bestValue = f i))
    (hf : ∀ mv ∈ moves, f mv ≠ JSNum.negInf) :
    (moves = [] ∧ pickBest f moves bestMove bestValue = bestMove) ∨
    ∃ i, pickBest f moves bestMove bestValue = some i ∧ (i ∈ moves ∨ bestMove = some i) ∧
      JSNum.le bestValue (f i) = true ∧ ∀ j ∈ moves, JSNum.le (f j) (f i) = true := by
  induction moves generalizing bestMove bestValue with
  | nil => exact Or.inl ⟨rfl, rfl⟩
  | cons mv rest ih =>
    right
    have hrest : ∀ m ∈ rest, f m ≠ JSNum.negInf := fun m hm => hf m (List.mem_cons_of_mem _ hm)
    unfold pickBest
    split
    · rename_i hgt
      have hlt : JSNum.le (f mv) bestValue = false := by simpa [JSNum.gt] using hgt
      have hle : JSNum.le bestValue (f mv) = true := by
        rcases JSNum.le_total bestValue (f mv) with h | h
        · exact h
        · rw [h] at hlt; cases hlt
      rcases ih (some mv) (f mv) (Or.inr ⟨mv, rfl, rfl⟩) hrest with ⟨hnil, hp⟩ | ⟨i, hp, hmem, hbv, hall⟩
      · refine ⟨mv, hp, Or.inl (List.mem_cons_self _ _), hle, ?_⟩
        intro j hj
        subst hnil
        rw [List.mem_singleton] at hj
        subst hj
        exact JSNum.le_refl _
      · refine ⟨i, hp, ?_, JSNum.le_trans hle hbv, ?_⟩
        · rcases hmem with h | h
          · exact Or.inl (List.mem_cons_of_mem _ h)
          · cases h
            exact Or.inl (List.mem_cons_self _ _)
        · intro j hj
          rcases List.mem_cons.1 hj with rfl | hj
          · exact hbv
          · exact hall j hj
    · rename_i hgt
      have hle : JSNum.le (f mv) bestValue = true := by simpa [JSNum.gt] using hgt
      rcases hinv with ⟨_, hbv⟩ | ⟨i0, hbm, hbv⟩
      · exfalso
        rw [hbv] at hle
        have := hf mv (List.mem_cons_self _ _)
        cases hfm : f mv <;> simp_all [JSNum.le]
      · rcases ih bestMove bestValue (Or.inr ⟨i0, hbm, hbv⟩) hrest with ⟨hnil, hp⟩ | ⟨i, hp, hmem, hbv2, hall⟩
        · refine ⟨i0, by rw [hp, hbm], Or.inr hbm, by rw [hbv]; exact JSNum.le_refl _, ?_⟩
          intro j hj
          subst hnil
          rw [List.mem_singleton] at hj
          subst hj
          rw [← hbv]; exact hle
        · refine ⟨i, hp, ?_, hbv2, ?_⟩
          · rcases hmem with h | h
            · exact Or.inl (List.mem_cons_of_mem _ h)
            · exact Or.inr h
          · intro j hj
            rcases List.mem_cons.1 hj with rfl | hj
            · exact JSNum.le_trans hle hbv2
            · exact hall j hj

theorem isScore_ne_negInf {v : JSNum} (h : IsScore v) : v ≠ JSNum.negInf := by
  rcases h with rfl | rfl | rfl <;> simp

/-- On a board with an empty square the loop of `getBestMove` ends on an empty
square of maximal value. -/
theorem pickBest_available (b : Board) (hne : availableMoves b ≠ []) :
    ∃ i, pickBest (fun mv => val (b.set mv Cell.O) false) (availableMoves b) none JSNum.negInf
        = some i ∧ i ∈ availableMoves b ∧
      ∀ j ∈ availableMoves b,
        JSNum.le (val (b.set j Cell.O) false) (val (b.set i Cell.O) false) = true := by
  rcases pickBest_spec (fun mv => val (b.set mv Cell.O) false) (availableMoves b) none
    JSNum.negInf (Or.inl ⟨rfl, rfl⟩) (fun _ _ => isScore_ne_negInf (isScore_val _ _))
    with ⟨h, _⟩ | ⟨i, hp, hmem, _, hall⟩
  · exact absurd h hne
  · refine ⟨i, hp, ?_, hall⟩
    rcases hmem with h | h
    · exact h
    · cases h

/-! ## The threshold tests compute comparisons with `value` -/

theorem winnerOf_nil (b : Board) : winnerOf b [] = Cell.null := rfl

theorem winner_step (x y z : Cell) (l : Nat × Nat × Nat) (r : Option WinnerInfo) :
    (match (if (x.truthy && (x == y) && (x == z)) = true
        then some ({ winner := x, line := l } : WinnerInfo) else r) with
      | some w => w.winner
      | none => Cell.null)
    = orElse (three x y z) (match r with
      | some w => w.winner
      | none => Cell.null) := by
  cases x <;> cases y <;> cases z <;> simp [Cell.truthy, three, orElse]

theorem winnerOf_cons (b : Board) (l : Nat × Nat × Nat) (ls : List (Nat × Nat × Nat)) :
    winnerOf b (l :: ls)
      = orElse (three (sq b l.1) (sq b l.2.1) (sq b l.2.2)) (winnerOf b ls) := by
  unfold winnerOf
  simp only [calculateWinnerLoop, lineComplete]
  exact winner_step _ _ _ _ _

theorem orElse_null (c : Cell) : orElse c Cell.null = c := by
  cases c <;> rfl

theorem winnerOf_nine (a0 a1 a2 a3 a4 a5 a6 a7 a8 : Cell) :
    winnerOf [a0, a1, a2, a3, a4, a5, a6, a7, a8] lines = winner9 a0 a1 a2 a3 a4 a5 a6 a7 a8 := by
  simp only [lines, winnerOf_cons, winnerOf_nil, orElse_null, winner9]
  rfl

theorem calculateWinnerLoop_winner_truthy (b : Board) (ls : List (Nat × Nat × Nat))
    (w : WinnerInfo) (h : calculateWinnerLoop b ls = some w) : w.winner.truthy = true := by
  induction ls with
  | nil => simp [calculateWinnerLoop] at h
  | cons l rest ih =>
    simp only [calculateWinnerLoop] at h
    split at h
    · rename_i hc
      cases h
      simp only [lineComplete, Bool.and_eq_true] at hc
      exact hc.1.1
    · exact ih h

theorem isNull_eq (c : Cell) : c.isNull = (c == Cell.null) := by
  cases c <;> rfl

theorem range_nine : List.range 9 = [0, 1, 2, 3, 4, 5, 6, 7, 8] := by decide

theorem any_available9 (a0 a1 a2 a3 a4 a5 a6 a7 a8 : Cell) (g : Nat → Bool) :
    (availableMoves [a0, a1, a2, a3, a4, a5, a6, a7, a8]).any g
      = ((a0.isNull && g 0) || ((a1.isNull && g 1) || ((a2.isNull && g 2) ||
        ((a3.isNull && g 3) || ((a4.isNull && g 4) || ((a5.isNull && g 5) ||
        ((a6.isNull && g 6) || ((a7.isNull && g 7) || (a8.isNull && g 8))))))))) := by
  rw [availableMoves_eq_filter, List.any_filter]
  simp only [List.length_cons, List.length_nil, Nat.zero_add, Nat.reduceAdd, range_nine,
    List.any_cons, List.any_nil, Bool.or_false, isNull_eq]
  rfl

theorem decide_imp_eq (p q : Bool) : decide (p = true → q = true) = (!p || q) := by
  cases p <;> cases q <;> rfl

theorem all_available9 (a0 a1 a2 a3 a4 a5 a6 a7 a8 : Cell) (g : Nat → Bool) :
    (availableMoves [a0, a1, a2, a3, a4, a5, a6, a7, a8]).all g
      = ((!a0.isNull || g 0) && ((!a1.isNull || g 1) && ((!a2.isNull || g 2) &&
        ((!a3.isNull || g 3) && ((!a4.isNull || g 4) && ((!a5.isNull || g 5) &&
        ((!a6.isNull || g 6) && ((!a7.isNull || g 7) && (!a8.isNull || g 8))))))))) := by
  rw [availableMoves_eq_filter, List.all_filter]
  simp only [List.length_cons, List.length_nil, Nat.zero_add, Nat.reduceAdd, range_nine,
    List.all_cons, List.all_nil, Bool.and_true, isNull_eq, decide_imp_eq]
  rfl

theorem le_num_negInf (k : Int) : JSNum.le (JSNum.num k) JSNum.negInf = false := rfl

theorem le_num_posInf (k : Int) : JSNum.le (JSNum.num k) JSNum.posInf = true := rfl

theorem reaches9_eq (k : Int) (fuel : Nat) (a0 a1 a2 a3 a4 a5 a6 a7 a8 : Cell) (m : Bool) :
    reaches9 (decide (k ≤ 1)) (decide (k ≤ -1)) (decide (k ≤ 0)) fuel
        a0 a1 a2 a3 a4 a5 a6 a7 a8 m
      = JSNum.le (JSNum.num k) (value fuel [a0, a1, a2, a3, a4, a5, a6, a7, a8] m) := by
  induction fuel generalizing a0 a1 a2 a3 a4 a5 a6 a7 a8 m with
  | zero => simp [reaches9, value, JSNum.le]
  | succ n ih =>
    have hw := winnerOf_nine a0 a1 a2 a3 a4 a5 a6 a7 a8
    unfold winnerOf at hw
    rw [reaches9, value, ← hw]
    cases hcw : calculateWinner [a0, a1, a2, a3, a4, a5, a6, a7, a8] with
    | some w =>
      have hcw1 : calculateWinnerLoop [a0, a1, a2, a3, a4, a5, a6, a7, a8] lines = some w := hcw
      have ht := calculateWinnerLoop_winner_truthy _ _ _ hcw1
      rw [hcw1]
      cases hwin : w.winner <;> simp [hwin, Cell.truthy, JSNum.le] at ht ⊢
    | none =>
      have hcw1 : calculateWinnerLoop [a0, a1, a2, a3, a4, a5, a6, a7, a8] lines = none := hcw
      rw [hcw1]
      simp only [isBoardFull, List.all_cons, List.all_nil, Bool.and_true]
      split
      · simp [JSNum.le]
      · cases m
        · simp only [Bool.false_eq_true, if_false]
          rw [le_foldl_min, all_available9, le_num_posInf, Bool.true_and]
          simp only [List.set_cons_zero, List.set_cons_succ, ih]
        · simp only [if_true]
          rw [le_foldl_max, any_available9, le_num_negInf, Bool.false_or]
          simp only [List.set_cons_zero, List.set_cons_succ, ih]

theorem reaches_eq (k : Int) (fuel : Nat) (b : Board) (m : Bool) :
    reaches k fuel b m = JSNum.le (JSNum.num k) (value fuel b m) := by
  unfold reaches
  split
  · exact reaches9_eq _ _ _ _ _ _ _ _ _ _ _ _
  · rfl

theorem value_eq_valueByTests (fuel : Nat) (b : Board) (m : Bool) :
    value fuel b m = valueByTests fuel b m := by
  unfold valueByTests
  rw [reaches_eq, reaches_eq]
  rcases isScore_value fuel b m with h | h | h <;> rw [h] <;> simp [JSNum.le]

theorem countNull_le_length (b : Board) : countNull b ≤ b.length := List.count_le_length _ _

theorem isScore_num {v : JSNum} (h : IsScore v) : ∃ n : Int, v = JSNum.num n := by
  rcases h with rfl | rfl | rfl <;> exact ⟨_, rfl⟩

/-- Claim C1. On a nine-square board with no completed line and an empty square,
`getBestMove` (whose calls of `minimax` have a budget of at least 9) returns the
index `i` of an empty square, leaves the board as it was, and the value `v` that
`minimax` gives the board with `"O"` at `i` is at least the value `w` it gives
the board with `"O"` at any empty square `j`. -/
theorem getBestMove_optimal (fuel : Nat) (squares : Board) (hlen : squares.length = 9)
    (_hwin : calculateWinner squares = none)
    (hempty : ∃ j, j < 9 ∧ sq squares j = Cell.null) (hfuel : 9 ≤ fuel) :
    ∃ (i : Nat) (v : Int), getBestMove fuel squares = some (some i, squares) ∧
      i < 9 ∧ sq squares i = Cell.null ∧
      minimax fuel (squares.set i Cell.O) false = some (JSNum.num v, squares.set i Cell.O) ∧
      ∀ j, j < 9 → sq squares j = Cell.null →
        ∃ w : Int, minimax fuel (squares.set j Cell.O) false
            = some (JSNum.num w, squares.set j Cell.O) ∧ w ≤ v := by
  have hcount : countNull squares ≤ fuel := by
    have := countNull_le_length squares
    omega
  obtain ⟨j0, hj0, hnull0⟩ := hempty
  have hne : availableMoves squares ≠ [] :=
    List.ne_nil_of_mem (mem_availableMoves.2 ⟨by omega, hnull0⟩)
  obtain ⟨i, hpick, himem, hall⟩ := pickBest_available squares hne
  have hchild : ∀ j ∈ availableMoves squares,
      minimax fuel (squares.set j Cell.O) false
        = some (val (squares.set j Cell.O) false, squares.set j Cell.O) := by
    intro j hj
    apply minimax_eq_val
    have := countNull_child Cell.O (by decide) hj
    omega
  obtain ⟨v, hv⟩ := isScore_num (isScore_val (squares.set i Cell.O) false)
  have hi := mem_availableMoves.1 himem
  refine ⟨i, v, ?_, by omega, hi.2, ?_, ?_⟩
  · rw [getBestMove_eq fuel squares hcount, hpick]
  · rw [hchild i himem, hv]
  · intro j hj hnull
    have hjmem : j ∈ availableMoves squares := mem_availableMoves.2 ⟨by omega, hnull⟩
    obtain ⟨w, hw⟩ := isScore_num (isScore_val (squares.set j Cell.O) false)
    refine ⟨w, ?_, ?_⟩
    · rw [hchild j hjmem, hw]
    · have := hall j hjmem
      rw [hv, hw] at this
      simpa [JSNum.le] using this

theorem getBestMove_optimal_witness :
    sampleBoard.length = 9 ∧ calculateWinner sampleBoard = none ∧
    (∃ j, j < 9 ∧ sq sampleBoard j = Cell.null) ∧ 9 ≤ 9 ∧
    ∃ (i : Nat) (v : Int), getBestMove 9 sampleBoard = some (some i, sampleBoard) ∧
      i < 9 ∧ sq sampleBoard i = Cell.null ∧
      minimax 9 (sampleBoard.set i Cell.O) false
        = some (JSNum.num v, sampleBoard.set i Cell.O) ∧
      ∀ j, j < 9 → sq sampleBoard j = Cell.null →
        ∃ w : Int, minimax 9 (sampleBoard.set j Cell.O) false
            = some (JSNum.num w, sampleBoard.set j Cell.O) ∧ w ≤ v :=
  ⟨by decide, by decide, ⟨2, by decide, by decide⟩, by decide,
    getBestMove_optimal 9 sampleBoard (by decide) (by decide) ⟨2, by decide, by decide⟩
      (by decide)⟩

/-! ## The search never loses -/

theorem emptyBoard_draw_or_better : JSNum.le (JSNum.num 0) (val emptyBoard false) = true := by
  have h : val emptyBoard false = value 10 emptyBoard false := rfl
  rw [h, ← reaches_eq]
  decide!

theorem not_full_of_null {b : Board} {i : Nat} (hi : i < b.length) (h : sq b i = Cell.null) :
    isBoardFull b = false := by
  cases hf : isBoardFull b with
  | false => rfl
  | true => exact absurd h ((isBoardFull_iff b).1 hf i hi)

/-- Along a game against the search the position stays at least a draw for O. -/
theorem aiGame_invariant (fuel : Nat) (hfuel : 9 ≤ fuel) (k : Nat) (b : Board)
    (h : AIGame fuel k b) :
    b.length = 9 ∧ JSNum.le (JSNum.num 0) (val b (decide (k % 2 = 1))) = true := by
  induction h with
  | start => exact ⟨by decide, emptyBoard_draw_or_better⟩
  | @xMove k b i _ hk hwin hi hnull ih =>
    obtain ⟨hlen, hval⟩ := ih
    refine ⟨by simp [hlen], ?_⟩
    have hk1 : decide (k % 2 = 1) = false := by simp [hk]
    have hk2 : decide ((k + 1) % 2 = 1) = true := by simp; omega
    rw [hk1] at hval
    rw [hk2]
    have hfull := not_full_of_null (by omega : i < b.length) hnull
    rw [val_min hwin hfull, le_foldl_min, le_num_posInf, Bool.true_and, List.all_eq_true] at hval
    exact hval i (mem_availableMoves.2 ⟨by omega, hnull⟩)
  | @oMove k b b1 i _ hk hwin hbest ih =>
    obtain ⟨hlen, hval⟩ := ih
    have hcount : countNull b ≤ fuel := by
      have := countNull_le_length b
      omega
    rw [getBestMove_eq fuel b hcount] at hbest
    simp only [Option.some.injEq, Prod.mk.injEq] at hbest
    obtain ⟨hpick, hb1⟩ := hbest
    subst hb1
    refine ⟨by simp [hlen], ?_⟩
    have hk1 : decide (k % 2 = 1) = true := by simp [hk]
    have hk2 : decide ((k + 1) % 2 = 1) = false := by simp; omega
    rw [hk1] at hval
    rw [hk2]
    have hne : availableMoves b ≠ [] := by
      intro hnil
      rw [hnil] at hpick
      simp [pickBest] at hpick
    have hfull : isBoardFull b = false := by
      cases hf : isBoardFull b with
      | false => rfl
      | true => exact absurd (availableMoves_eq_nil_of_full hf) hne
    obtain ⟨i1, hpick1, _, hall⟩ := pickBest_available b hne
    rw [hpick] at hpick1
    cases hpick1
    rw [val_max hwin hfull, le_foldl_max, le_num_negInf, Bool.false_or, List.any_eq_true] at hval
    obtain ⟨j, hj, hjval⟩ := hval
    exact JSNum.le_trans hjval (hall j hj)

/-- Claim C2. The search cannot be beaten: in a game from the empty board in
which X moves to any empty square at even plies and O moves to the square
returned by `getBestMove` at odd plies (budget at least 9), no position is
reached on which `calculateWinner` reports `"X"`. -/
theorem ai_never_loses (fuel : Nat) (hfuel : 9 ≤ fuel) (k : Nat) (b : Board)
    (h : AIGame fuel k b) (w : WinnerInfo) (hw : calculateWinner b = some w) :
    w.winner ≠ Cell.X := by
  intro hX
  have hval := (aiGame_invariant fuel hfuel k b h).2
  rw [val_of_winner _ hw, hX] at hval
  simp [JSNum.le] at hval

/-! ## `calculateWinner` -/

theorem lineComplete_iff (b : Board) (l : Nat × Nat × Nat) :
    lineComplete b l = true ↔ ThreeInLine b l := by
  unfold lineComplete ThreeInLine
  simp only [Bool.and_eq_true, beq_iff_eq, truthy_iff_ne_null]
  constructor
  · rintro ⟨⟨h1, h2⟩, h3⟩
    exact ⟨h1, h2.symm, h3.symm⟩
  · rintro ⟨h1, h2, h3⟩
    exact ⟨⟨h1, h2.symm⟩, h3.symm⟩

theorem calculateWinnerLoop_eq_none (b : Board) (ls : List (Nat × Nat × Nat)) :
    calculateWinnerLoop b ls = none ↔ ∀ l ∈ ls, ¬ ThreeInLine b l := by
  induction ls with
  | nil => simp [calculateWinnerLoop]
  | cons l rest ih =>
    simp only [calculateWinnerLoop, List.mem_cons, forall_eq_or_imp, ← lineComplete_iff]
    split
    · rename_i hc
      simp [hc]
    · rename_i hc
      simp only [ih, ← lineComplete_iff]
      simp [hc]

theorem calculateWinnerLoop_eq_some (b : Board) (ls : List (Nat × Nat × Nat)) (w : WinnerInfo)
    (h : calculateWinnerLoop b ls = some w) :
    ∃ before after, ls = before ++ w.line :: after ∧
      (∀ l ∈ before, ¬ ThreeInLine b l) ∧ ThreeInLine b w.line ∧
      w.winner = sq b w.line.1 := by
  induction ls with
  | nil => simp [calculateWinnerLoop] at h
  | cons l rest ih =>
    simp only [calculateWinnerLoop] at h
    split at h
    · rename_i hc
      cases h
      exact ⟨[], rest, rfl, by simp, (lineComplete_iff b l).1 hc, rfl⟩
    · rename_i hc
      obtain ⟨before, after, hls, hbefore, hline, hwin⟩ := ih h
      refine ⟨l :: before, after, by rw [hls]; rfl, ?_, hline, hwin⟩
      intro l1 hl1
      rcases List.mem_cons.1 hl1 with rfl | hl1
      · rw [← lineComplete_iff]; exact hc
      · exact hbefore l1 hl1

/-- Claim C3. On a nine-square board `calculateWinner` returns a result exactly
when one of the eight lines holds three equal non-empty marks; the line it
returns is the first such line of the scan order (rows, columns, diagonals),
and the winner it returns is the mark on that line. -/
theorem calculateWinner_spec (squares : Board) (_hlen : squares.length = 9) :
    lines = [(0, 1, 2), (3, 4, 5), (6, 7, 8), (0, 3, 6), (1, 4, 7), (2, 5, 8),
      (0, 4, 8), (2, 4, 6)] ∧
    (calculateWinner squares ≠ none ↔ ∃ l ∈ lines, ThreeInLine squares l) ∧
    ∀ w, calculateWinner squares = some w →
      ∃ before after, lines = before ++ w.line :: after ∧
        (∀ l ∈ before, ¬ ThreeInLine squares l) ∧ ThreeInLine squares w.line ∧
        w.winner = sq squares w.line.1 := by
  refine ⟨rfl, ?_, ?_⟩
  · rw [Ne, calculateWinner, calculateWinnerLoop_eq_none]
    push_neg
    rfl
  · intro w hw
    exact calculateWinnerLoop_eq_some squares lines w hw

theorem calculateWinner_spec_witness :
    sampleBoard.length = 9 ∧
    (lines = [(0, 1, 2), (3, 4, 5), (6, 7, 8), (0, 3, 6), (1, 4, 7), (2, 5, 8),
      (0, 4, 8), (2, 4, 6)] ∧
    (calculateWinner sampleBoard ≠ none ↔ ∃ l ∈ lines, ThreeInLine sampleBoard l) ∧
    ∀ w, calculateWinner sampleBoard = some w →
      ∃ before after, lines = before ++ w.line :: after ∧
        (∀ l ∈ before, ¬ ThreeInLine sampleBoard l) ∧ ThreeInLine sampleBoard w.line ∧
        w.winner = sq sampleBoard w.line.1) :=
  ⟨by decide, calculateWinner_spec sampleBoard (by decide)⟩

/-- Claim C4. For each of the eight lines and each of the two marks, on the board
whose three squares of the line hold the mark and whose other six squares are
empty `calculateWinner` returns that mark with that line. -/
theorem calculateWinner_lineBoard (l : Nat × Nat × Nat) (m : Cell) (hl : l ∈ lines)
    (hm : m ≠ Cell.null) :
    calculateWinner (lineBoard l m) = some { winner := m, line := l } := by
  simp only [lines, List.mem_cons, List.mem_singleton, List.not_mem_nil, or_false] at hl
  rcases hl with rfl | rfl | rfl | rfl | rfl | rfl | rfl | rfl <;> cases m <;>
    first
      | exact absurd rfl hm
      | decide

theorem calculateWinner_lineBoard_witness :
    (2, 5, 8) ∈ lines ∧ Cell.O ≠ Cell.null ∧
    calculateWinner (lineBoard (2, 5, 8) Cell.O) = some { winner := Cell.O, line := (2, 5, 8) } :=
  ⟨by decide, by decide, calculateWinner_lineBoard (2, 5, 8) Cell.O (by decide) (by decide)⟩

/-! ## The status line -/

theorem calculateWinner_eq_none_iff (b : Board) :
    calculateWinner b = none ↔ ∀ l ∈ lines, ¬ ThreeInLine b l :=
  calculateWinnerLoop_eq_none b lines

/-- Claim C5. For a nine-square current position with no completed line,
`calculateWinner` returns `null`, and the status that `Game` derives is `Draw`
when no square is empty and `Next player: ...` when some square is empty. -/
theorem status_without_line (s : GameState) (cur : Board) (hcur : currentSquares s = some cur)
    (hlen : cur.length = 9) (hno : ∀ l ∈ lines, ¬ ThreeInLine cur l) :
    calculateWinner cur = none ∧
    ((∀ i, i < 9 → sq cur i ≠ Cell.null) → status s = some "Draw") ∧
    ((∃ i, i < 9 ∧ sq cur i = Cell.null) →
      status s = some ("Next player: " ++ (if xIsNext s then "X" else "O"))) := by
  have hw : calculateWinner cur = none := (calculateWinner_eq_none_iff cur).2 hno
  refine ⟨hw, ?_, ?_⟩
  · intro hall
    have hfull : isBoardFull cur = true := by
      rw [isBoardFull_iff, hlen]
      exact hall
    simp [status, hcur, statusOf, hw, hfull]
  · rintro ⟨i, hi, hnull⟩
    have hfull : isBoardFull cur = false := not_full_of_null (by omega) hnull
    simp [status, hcur, statusOf, hw, hfull]

theorem status_without_line_witness :
    currentSquares initialState = some emptyBoard ∧ emptyBoard.length = 9 ∧
    (∀ l ∈ lines, ¬ ThreeInLine emptyBoard l) ∧
    (calculateWinner emptyBoard = none ∧
    ((∀ i, i < 9 → sq emptyBoard i ≠ Cell.null) → status initialState = some "Draw") ∧
    ((∃ i, i < 9 ∧ sq emptyBoard i = Cell.null) →
      status initialState
        = some ("Next player: " ++ (if xIsNext initialState then "X" else "O")))) :=
  ⟨rfl, by decide, (calculateWinner_eq_none_iff emptyBoard).1 (by decide),
    status_without_line initialState emptyBoard rfl (by decide)
      ((calculateWinner_eq_none_iff emptyBoard).1 (by decide))⟩

/-! ## `handleClick` and `jumpTo` -/

/-- Claim C6. An illegal click changes nothing: when the current position (nine
squares) has a winner, or has no empty square, or holds a mark at square `i`
(`i` in 0..8), `handleClick(i)` leaves `history`, `currentMove`, `isAI` and
`aiTurn` as they were. -/
theorem handleClick_illegal (s : GameState) (cur : Board) (i : Nat)
    (hcur : currentSquares s = some cur) (_hlen : cur.length = 9) (hi : i < 9)
    (h : calculateWinner cur ≠ none ∨ (∀ j, j < 9 → sq cur j ≠ Cell.null) ∨
      sq cur i ≠ Cell.null) :
    handleClick s (some i) = some s := by
  have hguard : ((calculateWinner cur).isSome || (readAt cur (some i)).truthy) = true := by
    rcases h with h | h | h
    · simp [Option.isSome_iff_ne_none, h]
    · simp [readAt, truthy_iff_ne_null, h i hi]
    · simp [readAt, truthy_iff_ne_null, h]
  simp only [handleClick, hcur, hguard, if_true]

/-- Claim C7. A legal click records a new position: when the current position
(nine squares) has no winner and its square `i` (`i` in 0..8) is empty,
`handleClick(i)` makes current a position that holds at `i` the mark of the ply
parity (`"X"` when `currentMove` is even, `"O"` when it is odd) and agrees with
the old position on every other square; the old position stays in `history` at
its index, unmodified. -/
theorem handleClick_legal (s : GameState) (cur : Board) (i : Nat)
    (hcur : currentSquares s = some cur) (hlen : cur.length = 9)
    (hwin : calculateWinner cur = none) (hi : i < 9) (hnull : sq cur i = Cell.null) :
    ∃ s1 next, handleClick s (some i) = some s1 ∧ s1.currentMove = s.currentMove + 1 ∧
      currentSquares s1 = some next ∧ next.length = 9 ∧
      sq next i = (if s.currentMove % 2 = 0 then Cell.X else Cell.O) ∧
      (∀ j, j ≠ i → sq next j = sq cur j) ∧
      s1.history[s.currentMove]? = some cur := by
  have hlt : s.currentMove < s.history.length := by
    unfold currentSquares at hcur
    exact (List.getElem?_eq_some.1 hcur).1
  have hguard : ((calculateWinner cur).isSome || (readAt cur (some i)).truthy) = false := by
    simp [hwin, readAt, hnull, Cell.truthy]
  have htake : (s.history.take (s.currentMove + 1)).length = s.currentMove + 1 := by
    rw [List.length_take]; omega
  have hclick : handleClick s (some i) = some
      { history := s.history.take (s.currentMove + 1)
          ++ [cur.set i (if xIsNext s then Cell.X else Cell.O)]
        currentMove := (s.history.take (s.currentMove + 1)
          ++ [cur.set i (if xIsNext s then Cell.X else Cell.O)]).length - 1
        isAI := s.isAI
        aiTurn := if s.isAI && xIsNext s then true else s.aiTurn } := by
    simp only [handleClick, hcur, hguard, Bool.false_eq_true, if_false, writeAt]
  refine ⟨_, cur.set i (if xIsNext s then Cell.X else Cell.O), hclick, ?_, ?_, ?_, ?_, ?_, ?_⟩
  · simp only [List.length_append, htake, List.length_singleton]
    omega
  · simp only [currentSquares, List.length_append, htake, List.length_singleton]
    rw [List.getElem?_append_right (by omega)]
    simp [htake]
  · simp [hlen]
  · rw [sq_set_self _ (by omega)]
    simp [xIsNext]
  · intro j hj
    exact sq_set_of_ne _ (Ne.symm hj)
  · show (s.history.take (s.currentMove + 1) ++ _)[s.currentMove]? = some cur
    rw [List.getElem?_append_left (by omega), List.getElem?_take_of_lt (by omega)]
    exact hcur

/-- Claim C8. Branch truncation: `jumpTo(k)` with `k` a valid index leaves
`history` as it is, and a legal click after it yields a history of `k + 2`
entries whose first `k + 1` entries are those of the old history and whose last
entry is the new position, with `currentMove = k + 1`. -/
theorem jumpTo_then_click (s : GameState) (k i : Nat) (cur : Board)
    (hk : k < s.history.length) (hcur : s.history[k]? = some cur) (_hlen : cur.length = 9)
    (hwin : calculateWinner cur = none) (_hi : i < 9) (hnull : sq cur i = Cell.null) :
    (jumpTo s k).history = s.history ∧
    ∃ s1, handleClick (jumpTo s k) (some i) = some s1 ∧ s1.history.length = k + 2 ∧
      s1.history.take (k + 1) = s.history.take (k + 1) ∧
      s1.history[k + 1]? = some (cur.set i (markAt k)) ∧ s1.currentMove = k + 1 := by
  have hguard : ((calculateWinner cur).isSome || (readAt cur (some i)).truthy) = false := by
    simp [hwin, readAt, hnull, Cell.truthy]
  have hcur1 : currentSquares (jumpTo s k) = some cur := hcur
  have htake : (s.history.take (k + 1)).length = k + 1 := by
    rw [List.length_take]; omega
  have hclick : handleClick (jumpTo s k) (some i) = some
      { history := s.history.take (k + 1) ++ [cur.set i (markAt k)]
        currentMove := (s.history.take (k + 1) ++ [cur.set i (markAt k)]).length - 1
        isAI := s.isAI
        aiTurn := if s.isAI && xIsNext (jumpTo s k) then true else false } := by
    simp only [handleClick, hcur1, hguard, Bool.false_eq_true, if_false, writeAt]
    simp [jumpTo, xIsNext, markAt]
  refine ⟨rfl, _, hclick, ?_, ?_, ?_, ?_⟩
  · simp only [List.length_append, htake, List.length_singleton]
  · rw [List.take_append_of_le_length (by omega), List.take_take]
    simp
  · rw [List.getElem?_append_right (by omega)]
    simp [htake]
  · simp only [List.length_append, htake, List.length_singleton]
    omega

theorem getBestMove_by_tests (fuel : Nat) (b : Board) (h : countNull b ≤ fuel) :
    getBestMove fuel b = some (pickBest
      (fun mv => valueByTests (countNull (b.set mv Cell.O) + 1) (b.set mv Cell.O) false)
      (availableMoves b) none JSNum.negInf, b) := by
  rw [getBestMove_eq fuel b h]
  simp only [val, value_eq_valueByTests]

theorem set_of_getElem? {α : Type} (l : List α) (k : Nat) (a : α) (h : l[k]? = some a) :
    l.set k a = l := by
  induction l generalizing k with
  | nil => rfl
  | cons x t ih =>
    cases k with
    | zero =>
      simp only [List.getElem?_cons_zero, Option.some.injEq] at h
      simp [h]
    | succ n =>
      simp only [List.getElem?_cons_succ] at h
      simp [ih n h]

theorem aiEffect_eq (fuel : Nat) (s : GameState) (cur : Board)
    (hcur : currentSquares s = some cur) (hcond : effectCondition s = true)
    (hcount : countNull cur ≤ fuel) :
    aiEffect fuel s = (handleClick s (pickBest
      (fun mv => valueByTests (countNull (cur.set mv Cell.O) + 1) (cur.set mv Cell.O) false)
      (availableMoves cur) none JSNum.negInf)).map fun s1 => { s1 with aiTurn := false } := by
  have hc : (s.isAI && !xIsNext s && (calculateWinner cur).isNone && s.aiTurn) = true := by
    simpa [effectCondition, hcur] using hcond
  have hset : s.history.set s.currentMove cur = s.history := set_of_getElem? _ _ _ hcur
  simp only [aiEffect, hcur, hc, if_true, getBestMove_by_tests fuel cur hcount, hset]
  cases handleClick s _ <;> rfl

/-! ## A drawn game in Human-vs-AI mode -/

theorem drawn_mode : handleEvent initialState (Event.mode "ai") = some (drawnState 0) := by
  decide!

theorem drawn_click0 : handleEvent (drawnState 0) (Event.click 4) = some (drawnState 1) := by
  decide!

theorem drawn_effect1 : aiEffect 10 (drawnState 1) = some (drawnState 2) := by
  rw [aiEffect_eq 10 (drawnState 1) (emptyBoard.set 4 Cell.X) (by decide!) (by decide!)
    (by decide!)]
  decide!

theorem drawn_click2 : handleEvent (drawnState 2) (Event.click 8) = some (drawnState 3) := by
  decide!

theorem drawn_effect3 : aiEffect 10 (drawnState 3) = some (drawnState 4) := by
  rw [aiEffect_eq 10 (drawnState 3)
    [Cell.O, Cell.null, Cell.null, Cell.null, Cell.X, Cell.null, Cell.null, Cell.null, Cell.X]
    (by decide!) (by decide!) (by decide!)]
  decide!

theorem drawn_click4 : handleEvent (drawnState 4) (Event.click 1) = some (drawnState 5) := by
  decide!

theorem drawn_effect5 : aiEffect 10 (drawnState 5) = some (drawnState 6) := by
  rw [aiEffect_eq 10 (drawnState 5)
    [Cell.O, Cell.X, Cell.O, Cell.null, Cell.X, Cell.null, Cell.null, Cell.null, Cell.X]
    (by decide!) (by decide!) (by decide!)]
  decide!

theorem drawn_click6 : handleEvent (drawnState 6) (Event.click 6) = some (drawnState 7) := by
  decide!

theorem drawn_effect7 : aiEffect 10 (drawnState 7) = some (drawnState 8) := by
  rw [aiEffect_eq 10 (drawnState 7)
    [Cell.O, Cell.X, Cell.O, Cell.null, Cell.X, Cell.null, Cell.X, Cell.O, Cell.X]
    (by decide!) (by decide!) (by decide!)]
  decide!

theorem drawn_click8 : handleEvent (drawnState 8) (Event.click 5) = some (drawnState 9) := by
  decide!

theorem drawn_effect9 : aiEffect 10 (drawnState 9) = some overrunState := by
  rw [aiEffect_eq 10 (drawnState 9) drawnBoard (by decide!) (by decide!) (by decide!)]
  decide!

/-- The full drawn position is reached in Human-vs-AI mode with the effect
still to run. -/
theorem reachable_drawnState9 : Reachable 10 (drawnState 9) := by
  have r0 : Reachable 10 (drawnState 0) :=
    Reachable.event (Event.mode "ai") Reachable.init (by decide!) (by decide!) drawn_mode
  have r1 : Reachable 10 (drawnState 1) :=
    Reachable.event (Event.click 4) r0 (by decide!) (by decide!) drawn_click0
  have r2 : Reachable 10 (drawnState 2) := Reachable.effect r1 (by decide!) drawn_effect1
  have r3 : Reachable 10 (drawnState 3) :=
    Reachable.event (Event.click 8) r2 (by decide!) (by decide!) drawn_click2
  have r4 : Reachable 10 (drawnState 4) := Reachable.effect r3 (by decide!) drawn_effect3
  have r5 : Reachable 10 (drawnState 5) :=
    Reachable.event (Event.click 1) r4 (by decide!) (by decide!) drawn_click4
  have r6 : Reachable 10 (drawnState 6) := Reachable.effect r5 (by decide!) drawn_effect5
  have r7 : Reachable 10 (drawnState 7) :=
    Reachable.event (Event.click 6) r6 (by decide!) (by decide!) drawn_click6
  have r8 : Reachable 10 (drawnState 8) := Reachable.effect r7 (by decide!) drawn_effect7
  exact Reachable.event (Event.click 5) r8 (by decide!) (by decide!) drawn_click8

/-- Claim C9 (fails on the code). In Human-vs-AI mode, after the clicks 4, 8, 1,
6, 5 with the effect run after each, `history` has 11 entries and its last two
entries are the same full board: the effect ran on the drawn position, where
`getBestMove` returns `undefined`, and `handleClick(undefined)` appended a copy
of the position. -/
theorem history_overrun :
    ∃ s, Reachable 10 s ∧ s.history.length = 11 ∧ s.currentMove = 10 ∧
      s.history[9]? = some drawnBoard ∧ s.history[10]? = some drawnBoard :=
  ⟨overrunState, Reachable.effect reachable_drawnState9 (by decide!) drawn_effect9,
    by decide!, by decide!, by decide!, by decide!⟩

/-- Claim C10 (fails on the code). In Human-vs-AI mode, after the clicks 4, 8, 1,
6, 5 the condition of the effect holds on a position with no empty square, and
the call `getBestMove(currentSquares)` that the effect makes returns
`undefined`. -/
theorem search_called_on_full_board :
    ∃ s cur, Reachable 10 s ∧ effectCondition s = true ∧ currentSquares s = some cur ∧
      cur.length = 9 ∧ (∀ i, i < 9 → sq cur i ≠ Cell.null) ∧
      getBestMove 10 cur = some (none, cur) := by
  refine ⟨drawnState 9, drawnBoard, reachable_drawnState9, by decide!, by decide!, by decide!,
    by decide!, ?_⟩
  rw [getBestMove_by_tests 10 drawnBoard (by decide!)]
  decide!

theorem getBestMove_reply (b : Board) (i : Nat) (hcount : countNull b ≤ 9)
    (h : pickBest
      (fun mv => valueByTests (countNull (b.set mv Cell.O) + 1) (b.set mv Cell.O) false)
      (availableMoves b) none JSNum.negInf = some i) :
    getBestMove 9 b = some (some i, b) := by
  rw [getBestMove_by_tests 9 b hcount, h]

/-- The game X 0, O 4, X 1, O 2, X 3, O 6 is a game against the search. -/
theorem aiGame_wonBoard : AIGame 9 6 wonBoard := by
  have h1 : AIGame 9 1 (emptyBoard.set 0 Cell.X) :=
    AIGame.xMove 0 AIGame.start (by decide) (by decide!) (by decide) (by decide!)
  have h2 : AIGame 9 2 ((emptyBoard.set 0 Cell.X).set 4 Cell.O) :=
    AIGame.oMove 4 h1 (by decide) (by decide!)
      (getBestMove_reply _ 4 (by decide!) (by decide!))
  have h3 : AIGame 9 3 (((emptyBoard.set 0 Cell.X).set 4 Cell.O).set 1 Cell.X) :=
    AIGame.xMove 1 h2 (by decide) (by decide!) (by decide) (by decide!)
  have h4 : AIGame 9 4 ((((emptyBoard.set 0 Cell.X).set 4 Cell.O).set 1 Cell.X).set 2 Cell.O) :=
    AIGame.oMove 2 h3 (by decide) (by decide!)
      (getBestMove_reply _ 2 (by decide!) (by decide!))
  have h5 : AIGame 9 5
      (((((emptyBoard.set 0 Cell.X).set 4 Cell.O).set 1 Cell.X).set 2 Cell.O).set 3 Cell.X) :=
    AIGame.xMove 3 h4 (by decide) (by decide!) (by decide) (by decide!)
  exact AIGame.oMove 6 h5 (by decide) (by decide!)
    (getBestMove_reply _ 6 (by decide!) (by decide!))

theorem ai_never_loses_witness :
    9 ≤ 9 ∧ AIGame 9 6 wonBoard ∧
    calculateWinner wonBoard = some { winner := Cell.O, line := (2, 4, 6) } ∧
    ({ winner := Cell.O, line := (2, 4, 6) } : WinnerInfo).winner ≠ Cell.X :=
  ⟨by decide, aiGame_wonBoard, by decide!,
    ai_never_loses 9 (by decide) 6 wonBoard aiGame_wonBoard _ (by decide!)⟩

theorem handleClick_illegal_witness :
    currentSquares sampleState = some (emptyBoard.set 0 Cell.X) ∧
    (emptyBoard.set 0 Cell.X).length = 9 ∧ 0 < 9 ∧
    (calculateWinner (emptyBoard.set 0 Cell.X) ≠ none ∨
      (∀ j, j < 9 → sq (emptyBoard.set 0 Cell.X) j ≠ Cell.null) ∨
      sq (emptyBoard.set 0 Cell.X) 0 ≠ Cell.null) ∧
    handleClick sampleState (some 0) = some sampleState :=
  ⟨by decide, by decide, by decide, Or.inr (Or.inr (by decide)),
    handleClick_illegal sampleState (emptyBoard.set 0 Cell.X) 0 (by decide) (by decide)
      (by decide) (Or.inr (Or.inr (by decide)))⟩

theorem handleClick_legal_witness :
    currentSquares sampleState = some (emptyBoard.set 0 Cell.X) ∧
    (emptyBoard.set 0 Cell.X).length = 9 ∧
    calculateWinner (emptyBoard.set 0 Cell.X) = none ∧ 4 < 9 ∧
    sq (emptyBoard.set 0 Cell.X) 4 = Cell.null ∧
    ∃ s1 next, handleClick sampleState (some 4) = some s1 ∧
      s1.currentMove = sampleState.currentMove + 1 ∧
      currentSquares s1 = some next ∧ next.length = 9 ∧
      sq next 4 = (if sampleState.currentMove % 2 = 0 then Cell.X else Cell.O) ∧
      (∀ j, j ≠ 4 → sq next j = sq (emptyBoard.set 0 Cell.X) j) ∧
      s1.history[sampleState.currentMove]? = some (emptyBoard.set 0 Cell.X) :=
  ⟨by decide, by decide, by decide, by decide, by decide,
    handleClick_legal sampleState (emptyBoard.set 0 Cell.X) 4 (by decide) (by decide)
      (by decide) (by decide) (by decide)⟩

theorem jumpTo_then_click_witness :
    0 < sampleState.history.length ∧ sampleState.history[0]? = some emptyBoard ∧
    emptyBoard.length = 9 ∧ calculateWinner emptyBoard = none ∧ 4 < 9 ∧
    sq emptyBoard 4 = Cell.null ∧
    ((jumpTo sampleState 0).history = sampleState.history ∧
    ∃ s1, handleClick (jumpTo sampleState 0) (some 4) = some s1 ∧ s1.history.length = 0 + 2 ∧
      s1.history.take (0 + 1) = sampleState.history.take (0 + 1) ∧
      s1.history[0 + 1]? = some (emptyBoard.set 4 (markAt 0)) ∧ s1.currentMove = 0 + 1) :=
  ⟨by decide, by decide, by decide, by decide, by decide, by decide,
    jumpTo_then_click sampleState 0 4 emptyBoard (by decide) (by decide) (by decide)
      (by decide) (by decide) (by decide)⟩

/-! ## The search leaves its input as it found it -/

/-- Claim C11. The search does not change its input: on a nine-square board,
with a budget of at least 10, `getBestMove` returns with the array holding the
same squares as before the call, and so does `minimax` for either value of
`isMaximizing`. -/
theorem search_restores_board (fuel : Nat) (squares : Board) (hlen : squares.length = 9)
    (hfuel : 10 ≤ fuel) :
    (∃ move, getBestMove fuel squares = some (move, squares)) ∧
    ∀ isMaximizing, ∃ v, minimax fuel squares isMaximizing = some (v, squares) := by
  have hcount := countNull_le_length squares
  constructor
  · exact ⟨_, getBestMove_eq fuel squares (by omega)⟩
  · intro isMaximizing
    exact ⟨_, minimax_eq_val fuel squares isMaximizing (by omega)⟩

theorem search_restores_board_witness :
    sampleBoard.length = 9 ∧ 10 ≤ 10 ∧
    ((∃ move, getBestMove 10 sampleBoard = some (move, sampleBoard)) ∧
    ∀ isMaximizing, ∃ v, minimax 10 sampleBoard isMaximizing = some (v, sampleBoard)) :=
  ⟨by decide, by decide, search_restores_board 10 sampleBoard (by decide) (by decide)⟩

/-! ## Values of particular positions -/

theorem val_emptyBoard : val emptyBoard false = JSNum.num 0 := by
  have h : val emptyBoard false = value 10 emptyBoard false := rfl
  rw [h, value_eq_valueByTests]
  decide!

/-- Claim C13. Best play by both sides from the start is a draw: on the empty
board with X to move, `minimax` (budget at least 10) returns 0. -/
theorem minimax_emptyBoard (fuel : Nat) (hfuel : 10 ≤ fuel) :
    minimax fuel emptyBoard false = some (JSNum.num 0, emptyBoard) := by
  have hcount : countNull emptyBoard = 9 := by decide
  rw [minimax_eq_val fuel emptyBoard false (by omega), val_emptyBoard]

theorem minimax_emptyBoard_witness :
    10 ≤ 10 ∧ minimax 10 emptyBoard false = some (JSNum.num 0, emptyBoard) :=
  ⟨by decide, minimax_emptyBoard 10 (by decide)⟩

/-- Claim C14. On the board whose only mark is X at the centre, `getBestMove`
(budget at least 9) returns a corner, namely square 0. -/
theorem getBestMove_centre (fuel : Nat) (hfuel : 9 ≤ fuel) :
    ∃ i, getBestMove fuel (emptyBoard.set 4 Cell.X) = some (some i, emptyBoard.set 4 Cell.X) ∧
      i = 0 ∧ i ∈ [0, 2, 6, 8] := by
  have hcount : countNull (emptyBoard.set 4 Cell.X) = 8 := by decide
  refine ⟨0, ?_, rfl, by decide⟩
  rw [getBestMove_by_tests fuel _ (by omega)]
  have h : pickBest
      (fun mv => valueByTests (countNull ((emptyBoard.set 4 Cell.X).set mv Cell.O) + 1)
        ((emptyBoard.set 4 Cell.X).set mv Cell.O) false)
      (availableMoves (emptyBoard.set 4 Cell.X)) none JSNum.negInf = some 0 := by decide!
  rw [h]

theorem getBestMove_centre_witness :
    9 ≤ 9 ∧ ∃ i, getBestMove 9 (emptyBoard.set 4 Cell.X)
        = some (some i, emptyBoard.set 4 Cell.X) ∧ i = 0 ∧ i ∈ [0, 2, 6, 8] :=
  ⟨by decide, getBestMove_centre 9 (by decide)⟩

/-- Claim C15. On the position X X _ / O O _ / _ _ _ `getBestMove` (budget at
least 9) returns square 2. -/
theorem getBestMove_sampleBoard (fuel : Nat) (hfuel : 9 ≤ fuel) :
    getBestMove fuel
        [Cell.X, Cell.X, Cell.null, Cell.O, Cell.O, Cell.null, Cell.null, Cell.null, Cell.null]
      = some (some 2,
        [Cell.X, Cell.X, Cell.null, Cell.O, Cell.O, Cell.null, Cell.null, Cell.null, Cell.null]) := by
  have hcount : countNull sampleBoard = 5 := by decide
  have h : pickBest
      (fun mv => valueByTests (countNull (sampleBoard.set mv Cell.O) + 1)
        (sampleBoard.set mv Cell.O) false)
      (availableMoves sampleBoard) none JSNum.negInf = some 2 := by decide!
  show getBestMove fuel sampleBoard = some (some 2, sampleBoard)
  rw [getBestMove_by_tests fuel _ (by omega), h]

theorem getBestMove_sampleBoard_witness :
    9 ≤ 9 ∧ getBestMove 9
        [Cell.X, Cell.X, Cell.null, Cell.O, Cell.O, Cell.null, Cell.null, Cell.null, Cell.null]
      = some (some 2,
        [Cell.X, Cell.X, Cell.null, Cell.O, Cell.O, Cell.null, Cell.null, Cell.null, Cell.null]) :=
  ⟨by decide, getBestMove_sampleBoard 9 (by decide)⟩

/-! ## Terminal positions, range of values, termination -/

/-- Claim C18. Terminal evaluation: on a nine-square board, for either value of
`isMaximizing`, `minimax` (budget at least 1) returns 1 when `calculateWinner`
reports `"O"`, -1 when it reports `"X"` (whether or not the board is full), and
0 when no line is complete and no square is empty. -/
theorem minimax_terminal (fuel : Nat) (squares : Board) (isMaximizing : Bool)
    (_hlen : squares.length = 9) (hfuel : 1 ≤ fuel) :
    (∀ w, calculateWinner squares = some w → w.winner = Cell.O →
      minimax fuel squares isMaximizing = some (JSNum.num 1, squares)) ∧
    (∀ w, calculateWinner squares = some w → w.winner = Cell.X →
      minimax fuel squares isMaximizing = some (JSNum.num (-1), squares)) ∧
    (calculateWinner squares = none → (∀ i, i < 9 → sq squares i ≠ Cell.null) →
      minimax fuel squares isMaximizing = some (JSNum.num 0, squares)) := by
  obtain ⟨n, rfl⟩ : ∃ n, fuel = n + 1 := ⟨fuel - 1, by omega⟩
  refine ⟨?_, ?_, ?_⟩
  · intro w hw hO
    simp [minimax, hw, hO]
  · intro w hw hX
    simp [minimax, hw, hX]
  · intro hw hall
    have hfull : isBoardFull squares = true := by
      rw [isBoardFull_iff, _hlen]
      exact hall
    simp [minimax, hw, hfull]

theorem minimax_terminal_witness :
    fullWonBoard.length = 9 ∧ 1 ≤ 1 ∧
    ((∀ w, calculateWinner fullWonBoard = some w → w.winner = Cell.O →
      minimax 1 fullWonBoard true = some (JSNum.num 1, fullWonBoard)) ∧
    (∀ w, calculateWinner fullWonBoard = some w → w.winner = Cell.X →
      minimax 1 fullWonBoard true = some (JSNum.num (-1), fullWonBoard)) ∧
    (calculateWinner fullWonBoard = none → (∀ i, i < 9 → sq fullWonBoard i ≠ Cell.null) →
      minimax 1 fullWonBoard true = some (JSNum.num 0, fullWonBoard))) :=
  ⟨by decide, by decide, minimax_terminal 1 fullWonBoard true (by decide) (by decide)⟩

/-- Claim C19. On a nine-square board, for either value of `isMaximizing`,
`minimax` (budget at least 10) returns -1, 0 or 1, never an infinite
accumulator: a board with no winner that is not full has a move to explore. -/
theorem minimax_range (fuel : Nat) (squares : Board) (isMaximizing : Bool)
    (hlen : squares.length = 9) (hfuel : 10 ≤ fuel) :
    (∃ v : Int, minimax fuel squares isMaximizing = some (JSNum.num v, squares) ∧
      (v = -1 ∨ v = 0 ∨ v = 1)) ∧
    (calculateWinner squares = none → isBoardFull squares = false →
      availableMoves squares ≠ []) := by
  have hcount := countNull_le_length squares
  constructor
  · rw [minimax_eq_val fuel squares isMaximizing (by omega)]
    rcases isScore_val squares isMaximizing with h | h | h
    · exact ⟨-1, by rw [h], Or.inl rfl⟩
    · exact ⟨0, by rw [h], Or.inr (Or.inl rfl)⟩
    · exact ⟨1, by rw [h], Or.inr (Or.inr rfl)⟩
  · intro _ hfull
    obtain ⟨i, hi⟩ := exists_available_of_not_full hfull
    exact List.ne_nil_of_mem hi

theorem minimax_range_witness :
    sampleBoard.length = 9 ∧ 10 ≤ 10 ∧
    ((∃ v : Int, minimax 10 sampleBoard true = some (JSNum.num v, sampleBoard) ∧
      (v = -1 ∨ v = 0 ∨ v = 1)) ∧
    (calculateWinner sampleBoard = none → isBoardFull sampleBoard = false →
      availableMoves sampleBoard ≠ [])) :=
  ⟨by decide, by decide, minimax_range 10 sampleBoard true (by decide) (by decide)⟩

/-- Claim C20. Termination: on a nine-square board every recursive call of
`minimax` is made on a board with exactly one empty square fewer, the board has
at most 9 empty squares, and a budget of one more than the number of empty
squares is enough for `minimax` to return; the same budget is enough for
`getBestMove`. -/
theorem minimax_terminates (squares : Board) (isMaximizing : Bool)
    (hlen : squares.length = 9) :
    (∀ move ∈ availableMoves squares, ∀ mark, mark ≠ Cell.null →
      countNull (squares.set move mark) + 1 = countNull squares) ∧
    countNull squares ≤ 9 ∧
    (∀ fuel, countNull squares < fuel → (minimax fuel squares isMaximizing).isSome = true) ∧
    (∀ fuel, countNull squares < fuel → (getBestMove fuel squares).isSome = true) := by
  have hcount := countNull_le_length squares
  refine ⟨?_, by omega, ?_, ?_⟩
  · intro move hmove mark hmark
    exact countNull_child mark hmark hmove
  · intro fuel hfuel
    rw [minimax_eq_val fuel squares isMaximizing hfuel]
    rfl
  · intro fuel hfuel
    rw [getBestMove_eq fuel squares (by omega)]
    rfl

theorem minimax_terminates_witness :
    emptyBoard.length = 9 ∧
    ((∀ move ∈ availableMoves emptyBoard, ∀ mark, mark ≠ Cell.null →
      countNull (emptyBoard.set move mark) + 1 = countNull emptyBoard) ∧
    countNull emptyBoard ≤ 9 ∧
    (∀ fuel, countNull emptyBoard < fuel → (minimax fuel emptyBoard false).isSome = true) ∧
    (∀ fuel, countNull emptyBoard < fuel → (getBestMove fuel emptyBoard).isSome = true)) :=
  ⟨by decide, minimax_terminates emptyBoard false (by decide)⟩

/-! ## The tie-break of `getBestMove` -/

theorem JSNum.lt_trans {a b c : JSNum} (h1 : JSNum.le b a = false) (h2 : JSNum.le c b = false) :
    JSNum.le c a = false := by
  cases h : JSNum.le c a with
  | false => rfl
  | true =>
    rcases JSNum.le_total a b with hab | hab
    · rw [JSNum.le_trans h hab] at h2; cases h2
    · rw [hab] at h1; cases h1

theorem JSNum.lt_of_le_of_lt {a b c : JSNum} (h1 : JSNum.le a b = true)
    (h2 : JSNum.le c b = false) : JSNum.le c a = false := by
  cases h : JSNum.le c a with
  | false => rfl
  | true => rw [JSNum.le_trans h h1] at h2; cases h2

/-- The loop of `getBestMove` either keeps `bestMove`, every value being at most
`bestValue`, or ends on the first move of the list whose value is greatest:
earlier moves have a smaller value, later ones a value that is not greater. -/
theorem pickBest_first (f : Nat → JSNum) (moves : List Nat) (bestMove : Option Nat)
    (bestValue : JSNum) :
    (pickBest f moves bestMove bestValue = bestMove ∧
      ∀ j ∈ moves, JSNum.le (f j) bestValue = true) ∨
    ∃ i pre post, moves = pre ++ i :: post ∧ pickBest f moves bestMove bestValue = some i ∧
      JSNum.le (f i) bestValue = false ∧ (∀ j ∈ pre, JSNum.le (f i) (f j) = false) ∧
      ∀ j ∈ post, JSNum.le (f j) (f i) = true := by
  induction moves generalizing bestMove bestValue with
  | nil => exact Or.inl ⟨rfl, by simp⟩
  | cons mv rest ih =>
    unfold pickBest
    split
    · rename_i hgt
      have hlt : JSNum.le (f mv) bestValue = false := by simpa [JSNum.gt] using hgt
      right
      rcases ih (some mv) (f mv) with ⟨hp, hall⟩ | ⟨i, pre, post, hm, hp, hi, hpre, hpost⟩
      · exact ⟨mv, [], rest, rfl, hp, hlt, by simp, hall⟩
      · refine ⟨i, mv :: pre, post, by rw [hm]; rfl, hp, JSNum.lt_trans hlt hi, ?_, hpost⟩
        intro j hj
        rcases List.mem_cons.1 hj with rfl | hj
        · exact hi
        · exact hpre j hj
    · rename_i hgt
      have hle : JSNum.le (f mv) bestValue = true := by simpa [JSNum.gt] using hgt
      rcases ih bestMove bestValue with ⟨hp, hall⟩ | ⟨i, pre, post, hm, hp, hi, hpre, hpost⟩
      · left
        refine ⟨hp, ?_⟩
        intro j hj
        rcases List.mem_cons.1 hj with rfl | hj
        · exact hle
        · exact hall j hj
      · right
        refine ⟨i, mv :: pre, post, by rw [hm]; rfl, hp, hi, ?_, hpost⟩
        intro j hj
        rcases List.mem_cons.1 hj with rfl | hj
        · exact JSNum.lt_of_le_of_lt hle hi
        · exact hpre j hj

theorem availableMoves_pairwise (b : Board) : (availableMoves b).Pairwise (· < ·) := by
  rw [availableMoves_eq_filter]
  exact List.Pairwise.filter _ (List.pairwise_lt_range _)

/-- Claim C12. Tie-break: on a nine-square board with no completed line and an
empty square, `getBestMove` (budget at least 9) returns the empty square `i`
whose value `v` is the greatest among the empty squares and, among the empty
squares of that value, the one of lowest index. -/
theorem getBestMove_lowest (fuel : Nat) (squares : Board) (hlen : squares.length = 9)
    (_hwin : calculateWinner squares = none)
    (hempty : ∃ j, j < 9 ∧ sq squares j = Cell.null) (hfuel : 9 ≤ fuel) :
    ∃ (i : Nat) (v : Int), getBestMove fuel squares = some (some i, squares) ∧
      i < 9 ∧ sq squares i = Cell.null ∧
      minimax fuel (squares.set i Cell.O) false = some (JSNum.num v, squares.set i Cell.O) ∧
      ∀ j, j < 9 → sq squares j = Cell.null →
        ∃ w : Int, minimax fuel (squares.set j Cell.O) false
            = some (JSNum.num w, squares.set j Cell.O) ∧ w ≤ v ∧ (w = v → i ≤ j) := by
  have hcount : countNull squares ≤ fuel := by
    have := countNull_le_length squares
    omega
  obtain ⟨j0, hj0, hnull0⟩ := hempty
  have hj0mem : j0 ∈ availableMoves squares := mem_availableMoves.2 ⟨by omega, hnull0⟩
  have hchild : ∀ j ∈ availableMoves squares,
      minimax fuel (squares.set j Cell.O) false
        = some (val (squares.set j Cell.O) false, squares.set j Cell.O) := by
    intro j hj
    apply minimax_eq_val
    have := countNull_child Cell.O (by decide) hj
    omega
  rcases pickBest_first (fun mv => val (squares.set mv Cell.O) false) (availableMoves squares)
    none JSNum.negInf with ⟨_, hall⟩ | ⟨i, pre, post, hm, hp, _, hpre, hpost⟩
  · exfalso
    have h := hall j0 hj0mem
    rcases isScore_val (squares.set j0 Cell.O) false with hv | hv | hv <;>
      simp [hv, JSNum.le] at h
  · have himem : i ∈ availableMoves squares := by rw [hm]; simp
    have hi := mem_availableMoves.1 himem
    have hpw := availableMoves_pairwise squares
    rw [hm, List.pairwise_append] at hpw
    obtain ⟨v, hv⟩ := isScore_num (isScore_val (squares.set i Cell.O) false)
    refine ⟨i, v, ?_, by omega, hi.2, ?_, ?_⟩
    · rw [getBestMove_eq fuel squares hcount, hp]
    · rw [hchild i himem, hv]
    · intro j hj hnull
      have hjmem : j ∈ availableMoves squares := mem_availableMoves.2 ⟨by omega, hnull⟩
      obtain ⟨w, hw⟩ := isScore_num (isScore_val (squares.set j Cell.O) false)
      refine ⟨w, by rw [hchild j hjmem, hw], ?_⟩
      rw [hm, List.mem_append, List.mem_cons] at hjmem
      rcases hjmem with hjpre | rfl | hjpost
      · have h := hpre j hjpre
        simp only [hv, hw, JSNum.le, decide_eq_false_iff_not] at h
        constructor
        · omega
        · intro hwv; omega
      · rw [hv] at hw
        cases hw
        exact ⟨le_refl _, fun _ => le_refl _⟩
      · have h := hpost j hjpost
        simp only [hv, hw, JSNum.le, decide_eq_true_eq] at h
        have hlt : i < j := (List.pairwise_cons.1 hpw.2.1).1 j hjpost
        exact ⟨h, fun _ => by omega⟩

theorem getBestMove_lowest_witness :
    sampleBoard.length = 9 ∧ calculateWinner sampleBoard = none ∧
    (∃ j, j < 9 ∧ sq sampleBoard j = Cell.null) ∧ 9 ≤ 9 ∧
    ∃ (i : Nat) (v : Int), getBestMove 9 sampleBoard = some (some i, sampleBoard) ∧
      i < 9 ∧ sq sampleBoard i = Cell.null ∧
      minimax 9 (sampleBoard.set i Cell.O) false
        = some (JSNum.num v, sampleBoard.set i Cell.O) ∧
      ∀ j, j < 9 → sq sampleBoard j = Cell.null →
        ∃ w : Int, minimax 9 (sampleBoard.set j Cell.O) false
            = some (JSNum.num w, sampleBoard.set j Cell.O) ∧ w ≤ v ∧ (w = v → i ≤ j) :=
  ⟨by decide, by decide, ⟨2, by decide, by decide⟩, by decide,
    getBestMove_lowest 9 sampleBoard (by decide) (by decide) ⟨2, by decide, by decide⟩
      (by decide)⟩

/-! ## Complete lines in legal play -/

theorem forallCell_iff (p : Cell → Bool) : forallCell p = true ↔ ∀ c, p c = true := by
  unfold forallCell
  simp only [Bool.and_eq_true]
  constructor
  · rintro ⟨h0, h1, h2⟩ c
    cases c <;> assumption
  · intro h
    exact ⟨h _, h _, h _⟩

theorem fewLinesAll_true : fewLinesAll = true := by decide!

theorem fewLines9_true (a0 a1 a2 a3 a4 a5 a6 a7 a8 : Cell) :
    fewLines9 a0 a1 a2 a3 a4 a5 a6 a7 a8 = true := by
  have h := fewLinesAll_true
  unfold fewLinesAll at h
  simp only [forallCell_iff] at h
  exact h a0 a1 a2 a3 a4 a5 a6 a7 a8

theorem eq_nine (b : Board) (h : b.length = 9) :
    ∃ a0 a1 a2 a3 a4 a5 a6 a7 a8, b = [a0, a1, a2, a3, a4, a5, a6, a7, a8] := by
  rcases b with _ | ⟨a0, _ | ⟨a1, _ | ⟨a2, _ | ⟨a3, _ | ⟨a4, _ | ⟨a5, _ | ⟨a6, _ | ⟨a7,
    _ | ⟨a8, _ | ⟨a9, t⟩⟩⟩⟩⟩⟩⟩⟩⟩⟩
  all_goals first
    | exact ⟨_, _, _, _, _, _, _, _, _, rfl⟩
    | (simp only [List.length_cons, List.length_nil] at h; omega)

theorem lineComplete_eq_isMark (b : Board) (l : Nat × Nat × Nat) :
    (if lineComplete b l = true then 1 else 0)
      = (three (sq b l.1) (sq b l.2.1) (sq b l.2.2)).isMark := by
  unfold lineComplete
  cases sq b l.1 <;> cases sq b l.2.1 <;> cases sq b l.2.2 <;> rfl

theorem count_X_cons (c : Cell) (t : List Cell) :
    (c :: t).count Cell.X = c.isX + t.count Cell.X := by
  rw [List.count_cons]
  cases c <;> simp [Cell.isX, Nat.add_comm]

theorem count_O_cons (c : Cell) (t : List Cell) :
    (c :: t).count Cell.O = c.isO + t.count Cell.O := by
  rw [List.count_cons]
  cases c <;> simp [Cell.isO, Nat.add_comm]

theorem completeLines_length_nine (a0 a1 a2 a3 a4 a5 a6 a7 a8 : Cell) :
    (completeLines [a0, a1, a2, a3, a4, a5, a6, a7, a8]).length
      = lineCount9 a0 a1 a2 a3 a4 a5 a6 a7 a8 := by
  unfold completeLines lineCount9
  rw [← List.countP_eq_length_filter]
  simp only [lines, List.countP_cons, List.countP_nil, lineComplete_eq_isMark]
  simp only [sq, List.getD_cons_zero, List.getD_cons_succ]
  omega

/-- A board of nine squares with at most five `"X"` and at most four `"O"` has
at most two complete lines. -/
theorem completeLines_le_two (b : Board) (hlen : b.length = 9) (hX : b.count Cell.X ≤ 5)
    (hO : b.count Cell.O ≤ 4) : (completeLines b).length ≤ 2 := by
  obtain ⟨a0, a1, a2, a3, a4, a5, a6, a7, a8, rfl⟩ := eq_nine b hlen
  have h := fewLines9_true a0 a1 a2 a3 a4 a5 a6 a7 a8
  simp only [count_X_cons, count_O_cons, List.count_nil, Nat.add_zero] at hX hO
  rw [completeLines_length_nine]
  have hx : Nat.ble (a0.isX + (a1.isX + (a2.isX + (a3.isX + (a4.isX + (a5.isX + (a6.isX +
      (a7.isX + a8.isX)))))))) 5 = true := by
    rw [Nat.ble_eq]; exact hX
  have ho : Nat.ble (a0.isO + (a1.isO + (a2.isO + (a3.isO + (a4.isO + (a5.isO + (a6.isO +
      (a7.isO + a8.isO)))))))) 4 = true := by
    rw [Nat.ble_eq]; exact hO
  simp only [fewLines9, hx, ho, Bool.and_self, Bool.not_true, Bool.false_or] at h
  rw [Nat.ble_eq] at h
  exact h

theorem legalPlay_counts (k : Nat) (b : Board) (h : LegalPlay k b) :
    b.length = 9 ∧ b.count Cell.X = (k + 1) / 2 ∧ b.count Cell.O = k / 2 ∧
      countNull b + k = 9 := by
  induction h with
  | start => decide
  | @move k b i _ hwin hi hnull ih =>
    obtain ⟨hlen, hX, hO, hN⟩ := ih
    have hib : i < b.length := by omega
    have hget : b[i] = Cell.null := by rw [← sq_eq_getElem hib]; exact hnull
    have hmark : markAt k ≠ Cell.null := by
      unfold markAt; split <;> decide
    have hN1 := countNull_set hib hnull hmark
    have hcX : (b.set i (markAt k)).count Cell.X
        = b.count Cell.X + (if k % 2 = 0 then 1 else 0) := by
      rw [List.count_set _ _ _ _ hib, hget]
      by_cases hk : k % 2 = 0 <;> simp [markAt, hk]
    have hcO : (b.set i (markAt k)).count Cell.O
        = b.count Cell.O + (if k % 2 = 0 then 0 else 1) := by
      rw [List.count_set _ _ _ _ hib, hget]
      by_cases hk : k % 2 = 0 <;> simp [markAt, hk]
    refine ⟨by simp [hlen], ?_, ?_, by omega⟩
    · rw [hcX, hX]
      split <;> omega
    · rw [hcO, hO]
      split <;> omega

/-- The game X 0, O 3, X 1, O 4, X 5, O 6, X 8, O 7, X 2 is legal play; its
last move completes the top row and the right column at once. -/
theorem legalPlay_fullWonBoard : LegalPlay 9 fullWonBoard := by
  have h1 : LegalPlay 1 (emptyBoard.set 0 Cell.X) :=
    LegalPlay.move 0 LegalPlay.start (by decide!) (by decide) (by decide!)
  have h2 : LegalPlay 2 ((emptyBoard.set 0 Cell.X).set 3 Cell.O) :=
    LegalPlay.move 3 h1 (by decide!) (by decide) (by decide!)
  have h3 : LegalPlay 3
      [Cell.X, Cell.X, Cell.null, Cell.O, Cell.null, Cell.null, Cell.null, Cell.null, Cell.null] :=
    LegalPlay.move 1 h2 (by decide!) (by decide) (by decide!)
  have h4 : LegalPlay 4
      [Cell.X, Cell.X, Cell.null, Cell.O, Cell.O, Cell.null, Cell.null, Cell.null, Cell.null] :=
    LegalPlay.move 4 h3 (by decide!) (by decide) (by decide!)
  have h5 : LegalPlay 5
      [Cell.X, Cell.X, Cell.null, Cell.O, Cell.O, Cell.X, Cell.null, Cell.null, Cell.null] :=
    LegalPlay.move 5 h4 (by decide!) (by decide) (by decide!)
  have h6 : LegalPlay 6
      [Cell.X, Cell.X, Cell.null, Cell.O, Cell.O, Cell.X, Cell.O, Cell.null, Cell.null] :=
    LegalPlay.move 6 h5 (by decide!) (by decide) (by decide!)
  have h7 : LegalPlay 7
      [Cell.X, Cell.X, Cell.null, Cell.O, Cell.O, Cell.X, Cell.O, Cell.null, Cell.X] :=
    LegalPlay.move 8 h6 (by decide!) (by decide) (by decide!)
  have h8 : LegalPlay 8
      [Cell.X, Cell.X, Cell.null, Cell.O, Cell.O, Cell.X, Cell.O, Cell.O, Cell.X] :=
    LegalPlay.move 7 h7 (by decide!) (by decide) (by decide!)
  exact LegalPlay.move 2 h8 (by decide!) (by decide) (by decide!)

/-- Claim C16, as stated, fails: legal play reaches the full board X X X / O O X
/ O O X, on which two lines are complete, the top row and the right column. -/
theorem two_lines_complete :
    LegalPlay 9 fullWonBoard ∧ completeLines fullWonBoard = [(0, 1, 2), (2, 5, 8)] ∧
      ¬ (completeLines fullWonBoard).length ≤ 1 :=
  ⟨legalPlay_fullWonBoard, by decide!, by decide!⟩

/-- Claim C16, amended. In every position reached by legal alternating play at
most two of the eight lines are complete. -/
theorem legalPlay_at_most_two_lines (k : Nat) (b : Board) (h : LegalPlay k b) :
    (completeLines b).length ≤ 2 := by
  obtain ⟨hlen, hX, hO, hN⟩ := legalPlay_counts k b h
  apply completeLines_le_two b hlen
  · rw [hX]; omega
  · rw [hO]; omega

theorem legalPlay_at_most_two_lines_witness :
    LegalPlay 9 fullWonBoard ∧ (completeLines fullWonBoard).length ≤ 2 :=
  ⟨legalPlay_fullWonBoard, legalPlay_at_most_two_lines 9 fullWonBoard legalPlay_fullWonBoard⟩

/-! ## Stale-move protection -/

/-- What `handleClick` does: nothing, or, on a position without winner, it cuts
the history after the cursor and appends one position. -/
theorem handleClick_cases (s s1 : GameState) (i : Option Nat)
    (h : handleClick s i = some s1) :
    s1 = s ∨ ∃ cur next, currentSquares s = some cur ∧ calculateWinner cur = none ∧
      s1 = { history := s.history.take (s.currentMove + 1) ++ [next]
             currentMove := (s.history.take (s.currentMove + 1) ++ [next]).length - 1
             isAI := s.isAI
             aiTurn := if s.isAI && xIsNext s then true else s.aiTurn } := by
  unfold handleClick at h
  cases hcur : currentSquares s with
  | none => simp [hcur] at h
  | some cur =>
    simp only [hcur] at h
    split at h
    · left
      cases h
      rfl
    · rename_i hguard
      right
      have hwin : calculateWinner cur = none := by
        cases hw : calculateWinner cur with
        | none => rfl
        | some w => simp [hw] at hguard
      cases h
      exact ⟨cur, _, rfl, hwin, rfl⟩

theorem handleClick_cursor (s s1 : GameState) (i : Option Nat)
    (hlt : s.currentMove < s.history.length) (h : handleClick s i = some s1) :
    s1.currentMove < s1.history.length := by
  rcases handleClick_cases s s1 i h with rfl | ⟨cur, next, _, _, rfl⟩
  · exact hlt
  · have htake : (s.history.take (s.currentMove + 1)).length = s.currentMove + 1 := by
      rw [List.length_take]; omega
    have hlen : (s.history.take (s.currentMove + 1) ++ [next]).length = s.currentMove + 2 := by
      rw [List.length_append, htake]; rfl
    show _ - 1 < _
    rw [hlen]; omega

theorem aiTurnInv_handleClick (s s1 : GameState) (i : Option Nat) (hinv : AiTurnInv s)
    (hcond : effectCondition s = false) (h : handleClick s i = some s1) : AiTurnInv s1 := by
  refine ⟨handleClick_cursor s s1 i hinv.1 h, ?_⟩
  obtain ⟨hlt, hai⟩ := hinv
  rcases handleClick_cases s s1 i h with rfl | ⟨cur, next, hcur, hwin, rfl⟩
  · exact hai
  · have htake : (s.history.take (s.currentMove + 1)).length = s.currentMove + 1 := by
      rw [List.length_take]; omega
    have hlen : (s.history.take (s.currentMove + 1) ++ [next]).length = s.currentMove + 2 := by
      rw [List.length_append, htake]; rfl
    intro hturn
    show s.isAI = true ∧ (_ - 1) % 2 = 1 ∧ _ - 1 + 1 = _
    rw [hlen]
    have hturn1 : (if (s.isAI && xIsNext s) = true then true else s.aiTurn) = true := hturn
    by_cases hx : (s.isAI && xIsNext s) = true
    · simp only [Bool.and_eq_true, xIsNext, beq_iff_eq] at hx
      obtain ⟨hisAI, heven⟩ := hx
      exact ⟨hisAI, by omega, by omega⟩
    · rw [if_neg hx] at hturn1
      obtain ⟨hisAI, hodd, _⟩ := hai hturn1
      exfalso
      have hxn : xIsNext s = false := by simp [xIsNext, hodd]
      simp [effectCondition, hcur, hwin, hisAI, hturn1, hxn] at hcond

theorem aiTurnInv_of_reachable (fuel : Nat) (s : GameState) (h : Reachable fuel s) :
    AiTurnInv s := by
  induction h with
  | init => exact ⟨by decide, by decide⟩
  | @event s s1 e _ hcond hoff hev ih =>
    cases e with
    | click i =>
      exact aiTurnInv_handleClick s s1 (some i) ih hcond hev
    | jump move =>
      cases hev
      have hm : move < s.history.length := by simpa [Event.offered] using hoff
      exact ⟨hm, by simp [jumpTo]⟩
    | reset =>
      cases hev
      exact ⟨by simp [resetGame], by simp [resetGame]⟩
    | mode value =>
      cases hev
      exact ⟨by simp [handleModeChange, resetGame], by simp [handleModeChange, resetGame]⟩
  | @effect s s1 _ hcond heff ih =>
    unfold aiEffect at heff
    cases hcur : currentSquares s with
    | none => simp [hcur] at heff
    | some cur =>
      simp only [hcur] at heff
      split at heff
      · cases hbest : getBestMove fuel cur with
        | none => simp [hbest] at heff
        | some r =>
          obtain ⟨aiMove, cur1⟩ := r
          simp only [hbest] at heff
          cases hclick : handleClick { s with history := s.history.set s.currentMove cur1 }
              aiMove with
          | none => simp [hclick] at heff
          | some s2 =>
            simp only [hclick, Option.some.injEq] at heff
            have hlt1 : ({ s with history := s.history.set s.currentMove cur1 } :
                GameState).currentMove
                < ({ s with history := s.history.set s.currentMove cur1 } :
                  GameState).history.length := by
              simpa using ih.1
            have h2 := handleClick_cursor _ s2 aiMove hlt1 hclick
            subst heff
            exact ⟨h2, by simp⟩
      · cases heff
        exact ih

/-- Claim C17. Stale-move protection: in every state that `Game` goes through,
if `aiTurn` is set then `isAI` is set, `currentMove` is odd and equals
`history.length - 1`; `jumpTo`, `resetGame` and `handleModeChange` leave
`aiTurn` cleared; hence the effect, which runs only with `aiTurn` set, plays on
the last position of the history, the one made by the click that set `aiTurn`. -/
theorem stale_move_protection (fuel : Nat) (s : GameState) (h : Reachable fuel s) :
    (s.aiTurn = true →
      s.isAI = true ∧ s.currentMove % 2 = 1 ∧ s.currentMove = s.history.length - 1) ∧
    (∀ move, (jumpTo s move).aiTurn = false) ∧
    (resetGame s).aiTurn = false ∧
    (∀ value, (handleModeChange s value).aiTurn = false) ∧
    (effectCondition s = true → s.currentMove = s.history.length - 1) := by
  obtain ⟨hlt, hai⟩ := aiTurnInv_of_reachable fuel s h
  refine ⟨?_, fun _ => rfl, rfl, fun _ => rfl, ?_⟩
  · intro hturn
    obtain ⟨h1, h2, h3⟩ := hai hturn
    exact ⟨h1, h2, by omega⟩
  · intro hcond
    have hturn : s.aiTurn = true := by
      unfold effectCondition at hcond
      cases hcur : currentSquares s with
      | none => simp [hcur] at hcond
      | some cur =>
        simp only [hcur, Bool.and_eq_true] at hcond
        exact hcond.2
    obtain ⟨_, _, h3⟩ := hai hturn
    omega

theorem stale_move_protection_witness :
    Reachable 10 (drawnState 9) ∧
    ((drawnState 9).aiTurn = true →
      (drawnState 9).isAI = true ∧ (drawnState 9).currentMove % 2 = 1 ∧
        (drawnState 9).currentMove = (drawnState 9).history.length - 1) ∧
    (∀ move, (jumpTo (drawnState 9) move).aiTurn = false) ∧
    (resetGame (drawnState 9)).aiTurn = false ∧
    (∀ value, (handleModeChange (drawnState 9) value).aiTurn = false) ∧
    (effectCondition (drawnState 9) = true →
      (drawnState 9).currentMove = (drawnState 9).history.length - 1) :=
  ⟨reachable_drawnState9, stale_move_protection 10 (drawnState 9) reachable_drawnState9⟩

end TicTacToe
